import Mathlib

/-!
Verification of the `numpydoc_decorator` documentation compiler
(`src/numpydoc_decorator/impl.py`) against its natural-language
specification.

The embedding works over `Str := List Char`, modelling Python's `str` as a
sequence of characters.  Python standard-library helpers used by the source
(`textwrap.fill`, `textwrap.dedent`, `textwrap.indent`, `inspect.cleandoc`,
`str.strip`, `str.split`, `str.capitalize`) are modelled faithfully for the
ASCII fragment, with the following documented simplifications:

* `str.capitalize` / `str.upper` are modelled character-wise for ASCII
  letters (Unicode special cases such as ligatures are out of scope);
* `textwrap.fill`'s `break_on_hyphens` refinement (splitting compound
  hyphenated words) is not modelled: chunks are maximal runs of
  whitespace / non-whitespace, which coincides with CPython's behaviour on
  hyphen-free text.  All other `TextWrapper` defaults (`width=70`,
  `expand_tabs`, `replace_whitespace`, `drop_whitespace`,
  `break_long_words`) are modelled exactly;
* Python `repr` of literal scalar values is modelled for strings without
  quote or escape characters, integers and booleans.
-/

/-- Python strings, modelled as lists of characters. -/
abbrev Str := List Char

/-- Coerce a Lean string literal to the `Str` model. -/
def strL (s : String) : Str := s.data

/-- The characters stripped by Python `str.strip()` with no argument
(ASCII whitespace). -/
def pyIsSpace (c : Char) : Bool :=
  c = ' ' || c = '\t' || c = '\n' || c = '\r' || c = '\x0b' || c = '\x0c'

/-- Drop elements satisfying `p` from the end of a list. -/
def dropWhileEnd (p : Char → Bool) (s : Str) : Str :=
  (s.reverse.dropWhile p).reverse

/-- Python `s.strip()`: remove ASCII whitespace from both ends. -/
def pyStrip (s : Str) : Str :=
  dropWhileEnd pyIsSpace (s.dropWhile pyIsSpace)

/-- Python `s.strip("\n")`: remove newline characters from both ends. -/
def stripNl (s : Str) : Str :=
  dropWhileEnd (· = '\n') (s.dropWhile (· = '\n'))

/-- Python `s.split("\n\n")`: greedy left-to-right split on the two-newline
separator, keeping empty segments. -/
def splitP : Str → List Str
  | [] => [[]]
  | '\n' :: '\n' :: rest => [] :: splitP rest
  | c :: rest =>
    match splitP rest with
    | [] => [[c]]
    | seg :: segs => (c :: seg) :: segs

/-- Join a list of segments with the two-newline separator (inverse of
`splitP` on well-formed segment lists). -/
def joinP (l : List Str) : Str :=
  (l.intersperse (strL "\n\n")).flatten

/-- Python ASCII uppercase of a single character, as used by
`str.capitalize` on the first character. -/
def pyUpperChar (c : Char) : Char :=
  if 'a' ≤ c ∧ c ≤ 'z' then Char.ofNat (c.toNat - 32) else c

/-- Python `s.lower()` for ASCII. -/
def pyLowerChar (c : Char) : Char :=
  if 'A' ≤ c ∧ c ≤ 'Z' then Char.ofNat (c.toNat + 32) else c

/-- Python `s.lower()` applied to a whole string (ASCII model). -/
def pyLower (s : Str) : Str := s.map pyLowerChar

/-- Does `p` occur as a contiguous substring of `s`? -/
def containsSub (p : Str) : Str → Bool
  | [] => p.isEmpty
  | c :: rest => p.isPrefixOf (c :: rest) || containsSub p rest

/-- Replace every (non-overlapping, left-to-right) occurrence of `pat` by
`rep`, as Python `str.replace`.  For empty `pat` Python interleaves `rep`
between characters; the sources only use non-empty patterns, and we keep the
same convention by returning `s` unchanged when `pat` is empty. -/
def pyReplaceAllF (pat rep : Str) : Nat → Str → Str
  | 0, s => s
  | _, [] => []
  | fuel + 1, c :: rest =>
    if pat ≠ [] ∧ pat.isPrefixOf (c :: rest) then
      rep ++ pyReplaceAllF pat rep fuel ((c :: rest).drop pat.length)
    else
      c :: pyReplaceAllF pat rep fuel rest

/-- Entry point for `pyReplaceAllF`: the fuel `s.length + 1` is an upper
bound on the number of steps, each of which consumes at least one
character. -/
def pyReplaceAll (pat rep : Str) (s : Str) : Str :=
  pyReplaceAllF pat rep (s.length + 1) s

/-- Python `str.expandtabs()` with the default tab size of 8: each tab is
replaced by spaces up to the next multiple of 8; the column counter resets
after a newline or carriage return. -/
def expandTabs : Nat → Str → Str
  | _, [] => []
  | col, '\t' :: rest =>
    List.replicate (8 - col % 8) ' ' ++ expandTabs (col + (8 - col % 8)) rest
  | _, '\n' :: rest => '\n' :: expandTabs 0 rest
  | _, '\r' :: rest => '\r' :: expandTabs 0 rest
  | col, c :: rest => c :: expandTabs (col + 1) rest

/-- `TextWrapper._munge_whitespace` with the default options: expand tabs,
then turn each of `\t\n\x0b\x0c\r` into a single space. -/
def munge (s : Str) : Str :=
  (expandTabs 0 s).map (fun c =>
    if c = '\t' || c = '\n' || c = '\x0b' || c = '\x0c' || c = '\r' then ' ' else c)

/-- Split a munged string into maximal runs of spaces / non-spaces
(`TextWrapper._split` without hyphen handling; after `munge` the only
whitespace character left is the space). -/
def chunksOf : Str → List Str
  | [] => []
  | c :: rest =>
    match chunksOf rest with
    | [] => [[c]]
    | (d :: ds) :: gs =>
      if (c = ' ') = (d = ' ') then (c :: d :: ds) :: gs
      else [c] :: (d :: ds) :: gs
    | [] :: gs => [c] :: gs

/-- Is this chunk pure whitespace (`chunk.strip() == ''`)?  After `munge`
the only whitespace is the space character; the empty chunk also counts. -/
def isWsChunk (s : Str) : Bool := s.all (· = ' ')

/-- Total length of a list of chunks. -/
def sumLen (l : List Str) : Nat := (l.map List.length).sum

/-- The greedy fitting loop of `TextWrapper._wrap_chunks`: take chunks from
the front while the accumulated length stays within `width`.  Returns the
chunks taken and the remainder. -/
def fitChunks (width : Nat) : Nat → List Str → List Str × List Str
  | _, [] => ([], [])
  | curLen, c :: rest =>
    if curLen + c.length ≤ width then
      let (taken, rem) := fitChunks width (curLen + c.length) rest
      (c :: taken, rem)
    else
      ([], c :: rest)

/-- One step of `TextWrapper._handle_long_word` (with `break_long_words`
and no hyphen breaking): if the next chunk is longer than `width`, move its
first `space_left` characters onto the current line. -/
def handleLongWord (width curLen : Nat) (taken : List Str) (rest : List Str) :
    List Str × List Str :=
  match rest with
  | [] => (taken, [])
  | c :: rs =>
    if width < c.length then
      let spaceLeft := if width < 1 then 1 else width - curLen
      (taken ++ [c.take spaceLeft], c.drop spaceLeft :: rs)
    else
      (taken, c :: rs)

/-- Drop a trailing pure-whitespace chunk from the current line
(`drop_whitespace` at end of line). -/
def dropTrailingWs (taken : List Str) : List Str :=
  match taken.getLast? with
  | some last => if isWsChunk last then taken.dropLast else taken
  | none => taken

/-- The main loop of `TextWrapper._wrap_chunks` with the default options
(`initial_indent = subsequent_indent = ''`, `drop_whitespace`,
`break_long_words`, no `max_lines`).  `first` records whether no line has
been produced yet (leading whitespace is only dropped once a line exists).
The loop is written with explicit fuel so that it is structurally
recursive (and hence evaluates inside the kernel); `wrapChunks` below
supplies enough fuel for the loop to run to completion.  `wrapStep` builds
one line: greedily fit chunks, move part of an over-long word onto the
line, and drop a trailing whitespace chunk. -/
def wrapStep (width : Nat) (chunks : List Str) : List Str × List Str :=
  let fr := fitChunks width 0 chunks
  let hl := handleLongWord width (sumLen fr.1) fr.1 fr.2
  (dropTrailingWs hl.1, hl.2)

def wrapChunksF (width : Nat) : Nat → Bool → List Str → List Str
  | 0, _, _ => []
  | _, _, [] => []
  | fuel + 1, first, c0 :: cs0 =>
    let step := wrapStep width (if ¬ first ∧ isWsChunk c0 then cs0 else c0 :: cs0)
    if step.1.isEmpty then
      wrapChunksF width fuel first step.2
    else
      step.1.flatten :: wrapChunksF width fuel false step.2

/-- Entry point for `wrapChunksF`: every iteration of the loop consumes
part of the chunk list, so `sumLen chunks + chunks.length + 1` steps always
suffice (proved below as `wrapChunksF_fuel_le`). -/
def wrapChunks (width : Nat) (first : Bool) (chunks : List Str) : List Str :=
  wrapChunksF width (sumLen chunks + chunks.length + 1) first chunks

/-- `textwrap.wrap(s)` with the given width and otherwise default options. -/
def pyWrap (width : Nat) (s : Str) : List Str :=
  wrapChunks width true (chunksOf (munge s))

/-- `textwrap.fill(s)` with the given width: wrapped lines joined by
newlines. -/
def fill (width : Nat) (s : Str) : Str :=
  ((pyWrap width s).intersperse (strL "\n")).flatten

/-- The leading run of spaces and tabs of a line (the indent matched by
`textwrap.dedent`'s `_leading_whitespace_re`). -/
def leadingWs (s : Str) : Str := s.takeWhile (fun c => c = ' ' || c = '\t')

/-- Is the line non-empty and made solely of spaces and tabs
(`textwrap.dedent`'s `_whitespace_only_re`)? -/
def isWsOnlyLine (s : Str) : Bool := ¬ s.isEmpty && s.all (fun c => c = ' ' || c = '\t')

/-- The margin-update step of `textwrap.dedent`'s loop over line indents. -/
def marginStep (margin ind : Str) : Str :=
  if margin.isPrefixOf ind then margin
  else if ind.isPrefixOf margin then ind
  else (List.zip margin ind).takeWhile (fun p => p.1 = p.2) |>.map Prod.fst

/-- The common margin of a list of indents (`None` start state folded in:
the first indent seeds the margin). -/
def computeMargin : List Str → Str
  | [] => []
  | ind :: rest => (rest).foldl marginStep ind

/-- `textwrap.dedent`: normalise whitespace-only lines to empty, compute the
longest common space/tab margin of the remaining lines, and strip it from
every line that carries it. -/
def dedent (text : Str) : Str :=
  let ls := (text.splitOn '\n').map (fun l => if isWsOnlyLine l then [] else l)
  let indents := ls.filterMap (fun l => if l.isEmpty then none else some (leadingWs l))
  let margin := computeMargin indents
  let ls2 := if margin.isEmpty then ls
    else ls.map (fun l => if margin.isPrefixOf l then l.drop margin.length else l)
  (ls2.intersperse (strL "\n")).flatten

/-- `inspect.cleandoc`: expand tabs, strip the common indentation of all
lines after the first, left-strip the first line, and drop leading and
trailing blank lines. -/
def cleandoc (doc : Str) : Str :=
  let ls := (expandTabs 0 doc).splitOn '\n'
  let margins := ls.tail.filterMap (fun l =>
    if (l.dropWhile pyIsSpace).isEmpty then none
    else some (l.length - (l.dropWhile pyIsSpace).length))
  let ls2 := match ls with
    | [] => []
    | l0 :: rest =>
      match margins.min? with
      | some m => l0.dropWhile pyIsSpace :: rest.map (List.drop m)
      | none => [l0.dropWhile pyIsSpace] ++ rest
  let ls3 := (ls2.reverse.dropWhile List.isEmpty).reverse.dropWhile List.isEmpty
  (ls3.intersperse (strL "\n")).flatten

/-- `textwrap.indent(s, prefix)` with the default predicate: prepend the
prefix to every line that contains non-whitespace.  Lines are the segments
produced by `str.splitlines(keepends=True)`; for text containing only `\n`
line breaks this is the list of `\n`-terminated pieces (with no empty final
piece). -/
def splitKeepEnds : List Str → List Str
  | [] => []
  | [last] => if last.isEmpty then [] else [last]
  | l :: rest => (l ++ ['\n']) :: splitKeepEnds rest

def indentPy (pfx : Str) (s : Str) : Str :=
  ((splitKeepEnds (s.splitOn '\n')).map
    (fun l => if (pyStrip l).isEmpty then l else pfx ++ l)).flatten

/-- The terminal punctuation characters accepted by `punctuate`. -/
def punctChars : List Char := ['.', '!', '?', ':']

/-- `impl.punctuate`: strip, capitalize the first character, and append a
full stop when the last character is not terminal punctuation.  Python
raises `IndexError` when the input is non-empty but strips to nothing (it
indexes `s[0]`); that corner is modelled as the empty result and is
unreachable from the formatting pipeline for the inputs considered here. -/
def punctuate (s : Str) : Str :=
  if s.isEmpty then s
  else
    match pyStrip s with
    | [] => []
    | c :: rest =>
      let t := pyUpperChar c :: rest
      if (t.getLast (by simp [t])) ∈ punctChars then t else t ++ ['.']

/-- `impl.format_paragraph`: fill one punctuated, dedented paragraph and
terminate it with a newline.  The fill width is `textwrap.fill`'s default
of 70 columns. -/
def format_paragraph (s : Str) : Str :=
  fill 70 (punctuate (dedent (stripNl s))) ++ ['\n']

/-- `impl.format_indented_paragraph`. -/
def format_indented_paragraph (s : Str) : Str :=
  indentPy (strL "    ") (format_paragraph s)

/-- Does this paragraph start with one of the four verbatim markers
(indentation, directive/literal `..`, quote/prompt `>`, citation `[`)? -/
def isVerbatimPara (p : Str) : Bool :=
  (strL " ").isPrefixOf p || (strL "..").isPrefixOf p ||
  (strL ">").isPrefixOf p || (strL "[").isPrefixOf p

/-- The per-paragraph branch of `impl.format_paragraphs`: verbatim markers
are copied unchanged, other paragraphs are punctuated and filled at the
default width of 70 columns; either way two newlines are appended. -/
def paraBranch (p : Str) : Str :=
  if isVerbatimPara p then p ++ strL "\n\n"
  else fill 70 (punctuate p) ++ strL "\n\n"

/-- `impl.format_paragraphs`: strip outer newlines, dedent, split on blank
lines and process each paragraph with `paraBranch`. -/
def format_paragraphs (s : Str) : Str :=
  ((splitP (dedent (stripNl s))).map paraBranch).flatten

/-- `impl.format_indented_paragraphs`. -/
def format_indented_paragraphs (s : Str) : Str :=
  indentPy (strL "    ") (format_paragraphs s)

/-- A literal scalar value (as appears in `Literal[...]` arguments and
default values).  Python `repr` is modelled for strings without quote or
escape characters, for integers and for booleans. -/
inductive PyLit where
  | s (v : Str)
  | i (v : Int)
  | b (v : Bool)
deriving DecidableEq, Repr

/-- Python `repr` of a literal scalar. -/
def reprLit : PyLit → Str
  | .s v => '\x27' :: v ++ ['\x27']
  | .i v => strL (toString v)
  | .b true => strL "True"
  | .b false => strL "False"

/-- A Python runtime value usable as a parameter default: `None` or a
literal scalar. -/
inductive PyVal where
  | vNone
  | lit (v : PyLit)
deriving DecidableEq, Repr

/-- Python `repr` of a default value. -/
def reprVal : PyVal → Str
  | .vNone => strL "None"
  | .lit v => reprLit v

/-- Model of the Python type annotations handled by `impl.format_type`,
as seen through `typing.get_origin` / `typing.get_args`:

* `noneType` — `None` / `NoneType`;
* `cls n` — a plain class named `n` (`repr` starts with `<class`);
* `arrayLike` / `dtypeLike` — the numpy `ArrayLike` / `DTypeLike` aliases
  (numpy is modelled as installed);
* `annotated inner doc` — `Annotated[inner, doc?]`; `doc` is the second
  `get_args` entry when it is a string;
* `unionOf args` — `Union[...]` (also the normal form of `Optional[...]`);
* `literalOf vals` — `Literal[...]`;
* `seqOf origin elem` — a parameterized sequence type whose
  `get_origin` is one of `list` / `typing.List` / `collections.abc.Sequence`
  / `typing.Sequence`; `origin` is the origin class `__name__`
  (`"list"` or `"Sequence"`);
* `fixedTuple args` — `Tuple[...]` with no `Ellipsis` argument;
* `variadicTuple elem` — `Tuple[elem, ...]` (with `Ellipsis`);
* `generatorOf y s r`, `iteratorOf e`, `iterableOf e` — parameterized
  `Generator` / `Iterator` / `Iterable` annotations. -/
inductive PyType where
  | noneType
  | cls (n : Str)
  | arrayLike
  | dtypeLike
  | annotated (inner : PyType) (doc : Option Str)
  | unionOf (args : List PyType)
  | literalOf (vals : List PyLit)
  | seqOf (origin : Str) (elem : PyType)
  | fixedTuple (args : List PyType)
  | variadicTuple (elem : PyType)
  | generatorOf (y s r : PyType)
  | iteratorOf (e : PyType)
  | iterableOf (e : PyType)

/-- Join pieces with `", "` (Python `", ".join`). -/
def joinComma (l : List Str) : Str :=
  (l.intersperse (strL ", ")).flatten

mutual

/-- `typing._type_repr` model: how an annotation renders when it appears as
an argument of a parameterized typing construct (classes by bare name,
typing constructs by their own `repr`, which for composite constructs is
identical in both positions). -/
def typeArgRepr : PyType → Str
  | .noneType => strL "NoneType"
  | .cls n => n
  | .arrayLike => strL "ArrayLike"
  | .dtypeLike => strL "DTypeLike"
  | .annotated inner doc =>
    strL "typing.Annotated[" ++ typeArgRepr inner ++
      (match doc with
       | some d => strL ", " ++ reprLit (.s d)
       | none => []) ++ strL "]"
  | .unionOf [] => strL "typing.Union"
  | .unionOf (a :: args) =>
    strL "typing.Union[" ++ joinComma (typeArgRepr a :: typeArgReprList args) ++ strL "]"
  | .literalOf vals =>
    strL "typing.Literal" ++
      (if vals.isEmpty then []
       else strL "[" ++ joinComma (vals.map reprLit) ++ strL "]")
  | .seqOf origin elem =>
    strL "typing." ++ origin ++ strL "[" ++ typeArgRepr elem ++ strL "]"
  | .fixedTuple [] => strL "typing.Tuple"
  | .fixedTuple (a :: args) =>
    strL "typing.Tuple[" ++ joinComma (typeArgRepr a :: typeArgReprList args) ++ strL "]"
  | .variadicTuple elem =>
    strL "typing.Tuple[" ++ typeArgRepr elem ++ strL ", ...]"
  | .generatorOf y s r =>
    strL "typing.Generator[" ++
      joinComma [typeArgRepr y, typeArgRepr s, typeArgRepr r] ++ strL "]"
  | .iteratorOf e => strL "typing.Iterator[" ++ typeArgRepr e ++ strL "]"
  | .iterableOf e => strL "typing.Iterable[" ++ typeArgRepr e ++ strL "]"

/-- `typeArgRepr` mapped over a list of type arguments. -/
def typeArgReprList : List PyType → List Str
  | [] => []
  | t :: ts => typeArgRepr t :: typeArgReprList ts

end

/-- `repr(t)` model for annotation objects (with the `typing.` prefix that
`impl.format_type` later strips): plain classes and `NoneType` render in the
`<class ...>` form, everything else as in argument position. -/
def pyTypeRepr : PyType → Str
  | .noneType => strL "<class \x27NoneType\x27>"
  | .cls n => strL "<class \x27" ++ n ++ strL "\x27>"
  | t => typeArgRepr t

/-- Join pieces with `" or "` (Python `" or ".join`). -/
def joinOr (l : List Str) : Str :=
  (l.intersperse (strL " or ")).flatten

/-- The fall-through branch of `impl.format_type`: take `repr(t)`, switch to
`t.__name__` for plain classes, and strip every `"typing."` occurrence. -/
def format_type_else (t : PyType) : Str :=
  match t with
  | .cls n => pyReplaceAll (strL "typing.") [] n
  | t => pyReplaceAll (strL "typing.") [] (pyTypeRepr t)

mutual

/-- `impl.format_type`: humanize a type annotation.  Branches follow the
source order (numpy is modelled as installed; the dead `Optional` origin
branch of the source is unreachable because `get_origin` never yields
`Optional`; branches on distinct constructors commute). -/
def format_type : PyType → Str
  | .noneType => strL "None"
  | .arrayLike => strL "array_like"
  | .dtypeLike => strL "data-type"
  | .unionOf [.arrayLike, .noneType] => strL "array_like or None"
  | .unionOf [.dtypeLike, .noneType] => strL "data-type or None"
  | .annotated inner _ => format_type inner
  | .unionOf (a :: args) => joinOr (format_type a :: format_type_list args)
  | .literalOf (v :: vs) =>
    strL "\x7b" ++ joinComma ((v :: vs).map reprLit) ++ strL "\x7d"
  | .seqOf origin elem => pyLower origin ++ strL " of " ++ format_type elem
  | .variadicTuple elem => strL "tuple of " ++ format_type elem
  | t => format_type_else t

/-- `format_type` mapped over the members of a union. -/
def format_type_list : List PyType → List Str
  | [] => []
  | t :: ts => format_type t :: format_type_list ts

end

/-- A key of a named multi-value payload: a string from the caller's
mapping, or an integer generated by `auto_returns_multi`. -/
inductive RKey where
  | s (v : Str)
  | i (v : Nat)
deriving DecidableEq, Repr

/-- A value of a named multi-value payload: prose, or the bare `True` flag
produced by `get_annotated_doc`'s default in the auto path. -/
inductive RDoc where
  | s (v : Str)
  | flagTrue
deriving DecidableEq, Repr

/-- A named multi-value payload as consumed by `format_returns_named`. -/
abbrev NamedPayload := List (RKey × RDoc)

/-- The `returns` argument as passed by the caller: prose, a tuple of slot
names, or a mapping of slot names to prose. -/
inductive RetInput where
  | text (v : Str)
  | names (ns : List Str)
  | mapping (m : List (Str × Str))

/-- The `yields` / `receives` argument as passed by the caller. -/
inductive SimplePayload where
  | text (v : Str)
  | named (m : List (Str × Str))

/-- The internal returns payload after `auto_returns` processing:
`flagTrue` is Python's literal `True` (render the type alone). -/
inductive RetDocPayload where
  | flagTrue
  | text (v : Str)
  | named (m : NamedPayload)
  | names (ns : List Str)

/-- The error taxonomy of the compiler.  Each constructor corresponds to
one `raise` site of `impl.py` (all `DocumentationError` except where
noted), carrying the data interpolated into the message:

* `moreValuesThanTypes` — `"more values documented {names} than types
  {types}"`;
* `moreTypesThanValues` — `"more types {types} than values documented
  {names}"`;
* `attributeError` — Python `AttributeError` from `return_name.strip()`
  when an integer key meets an empty annotation (unreachable through the
  decorator);
* `assertionError` — the `assert` in `format_returns_auto` (unreachable
  through the decorator);
* `paramNotDocumented` — `"Parameter {name} not documented."`;
* `conflictingReturnYield` — `"cannot have both returns and yields"`;
* `receivesWithoutYields` — `"if receives, must also have yields"`;
* `yieldsIncompatible` — `"return type {origin!r} is not compatible with
  yields"`;
* `receivesIncompatible` — `"return type {origin!r} is not compatible with
  receives"`;
* `returnsTypeError` — Python `TypeError` `"returns must be str or
  Mapping"`. -/
inductive DocError where
  | moreValuesThanTypes (names : List RKey) (types : List (Option PyType))
  | moreTypesThanValues (types : List (Option PyType)) (names : List RKey)
  | attributeError
  | assertionError
  | paramNotDocumented (name : Str)
  | conflictingReturnYield
  | receivesWithoutYields
  | yieldsIncompatible (t : PyType)
  | receivesIncompatible (t : PyType)
  | returnsTypeError

/-- The per-slot declared types computed by `format_returns_named`
(lines 210–226 of `impl.py`): an empty annotation trusts the documented
count; a fixed tuple with a non-empty argument list contributes its
arguments; anything else (including a variadic tuple) is a single slot. -/
def returnTypesOf (ann : Option PyType) (n : Nat) : List (Option PyType) :=
  match ann with
  | none => List.replicate n none
  | some (.fixedTuple args) =>
    if args.isEmpty then [some (.fixedTuple args)] else args.map some
  | some t => [some t]

/-- The prose part of one named slot (`format_indented_paragraph` for a
string, nothing for the `True` flag). -/
def slotDocPart : RDoc → Str
  | .s d => format_indented_paragraph d
  | .flagTrue => []

/-- Render one named slot against its resolved type (the body of the zip
loop in `format_returns_named`). -/
def renderSlot (nm : RKey) (doc : RDoc) (ty : Option PyType) : Except DocError Str :=
  match ty, nm with
  | none, .s v => .ok (pyStrip v ++ strL " :" ++ ['\n'] ++ slotDocPart doc)
  | none, .i _ => .error .attributeError
  | some t, .s v => .ok (pyStrip v ++ strL " : " ++ format_type t ++ ['\n'] ++ slotDocPart doc)
  | some t, .i _ => .ok (format_type t ++ ['\n'] ++ slotDocPart doc)

/-- Render the zipped slots of a named payload. -/
def renderSlots : NamedPayload → List (Option PyType) → Except DocError Str
  | [], _ => .ok []
  | _, [] => .ok []
  | (nm, d) :: rest, ty :: tys =>
    match renderSlot nm d ty with
    | .error e => .error e
    | .ok s =>
      match renderSlots rest tys with
      | .error e => .error e
      | .ok r => .ok (s ++ r)

/-- `impl.format_returns_named`: resolve the slot types, check the arity in
both directions, then zip documented entries (in insertion order) against
the resolved types (in declaration order). -/
def format_returns_named (returns : NamedPayload) (ann : Option PyType) :
    Except DocError Str :=
  let return_types := returnTypesOf ann returns.length
  if returns.length > return_types.length then
    .error (.moreValuesThanTypes (returns.map Prod.fst) return_types)
  else if returns.length < return_types.length then
    .error (.moreTypesThanValues return_types (returns.map Prod.fst))
  else
    match renderSlots returns return_types with
    | .error e => .error e
    | .ok body => .ok (body ++ ['\n'])

/-- `impl.format_returns_unnamed`. -/
def format_returns_unnamed (returns : Str) (ann : Option PyType) : Str :=
  (match ann with
   | none => format_paragraph returns
   | some t => format_type t ++ ['\n'] ++ format_indented_paragraph returns) ++ ['\n']

/-- `impl.format_returns_auto` (the source asserts the annotation is
present; the empty case is Python `AssertionError`). -/
def format_returns_auto (ann : Option PyType) : Except DocError Str :=
  match ann with
  | some t => .ok (format_type t ++ ['\n'])
  | none => .error .assertionError

/-- Lift a caller string-keyed mapping to the internal named payload. -/
def toNamed (m : List (Str × Str)) : NamedPayload :=
  m.map (fun p => (RKey.s p.1, RDoc.s p.2))

/-- `impl.format_returns`: dispatch on the payload shape. -/
def format_returns (r : RetDocPayload) (ann : Option PyType) : Except DocError Str :=
  match r with
  | .flagTrue => format_returns_auto ann
  | .text s => .ok (format_returns_unnamed s ann)
  | .named m => format_returns_named m ann
  | .names _ => .error .returnsTypeError

/-- `impl.get_yield_annotation`: extract the yield component of a
generator/iterator/iterable return annotation. -/
def get_yield_ann (ann : Option PyType) : Except DocError (Option PyType) :=
  match ann with
  | none => .ok none
  | some (.generatorOf y _ _) => .ok (some y)
  | some (.iteratorOf e) => .ok (some e)
  | some (.iterableOf e) => .ok (some e)
  | some t => .error (.yieldsIncompatible t)

/-- `impl.get_send_annotation`: extract the send component of a generator
return annotation. -/
def get_send_ann (ann : Option PyType) : Except DocError (Option PyType) :=
  match ann with
  | none => .ok none
  | some (.generatorOf _ s _) => .ok (some s)
  | some t => .error (.receivesIncompatible t)

/-- `impl.format_yields`. -/
def format_yields (y : SimplePayload) (ann : Option PyType) : Except DocError Str :=
  match get_yield_ann ann with
  | .error e => .error e
  | .ok ya =>
    match y with
    | .text s => .ok (format_returns_unnamed s ya)
    | .named m => format_returns_named (toNamed m) ya

/-- `impl.format_receives`. -/
def format_receives (r : SimplePayload) (ann : Option PyType) : Except DocError Str :=
  match get_send_ann ann with
  | .error e => .error e
  | .ok sa =>
    match r with
    | .text s => .ok (format_returns_unnamed s sa)
    | .named m => format_returns_named (toNamed m) sa

/-- The `inspect.Parameter.kind` values relevant to rendering: standard
covers positional-only, positional-or-keyword and keyword-only parameters,
which the source renders identically. -/
inductive ParamKind where
  | standard
  | varPositional
  | varKeyword
deriving DecidableEq, Repr

/-- One signature parameter: name, kind, optional type annotation
(`none` is `Parameter.empty`), optional default value (`none` is
`Parameter.empty`). -/
structure PyParam where
  name : Str
  kind : ParamKind := .standard
  ann : Option PyType := none
  default : Option PyVal := none

/-- An `inspect.Signature`: ordered parameters and the return annotation
(`none` is `Parameter.empty`; the literal `None` annotation and `NoneType`
are both modelled as `PyType.noneType`). -/
structure PySig where
  params : List PyParam
  retAnn : Option PyType := none

/-- An insertion-ordered string dictionary (Python `dict[str, str]`). -/
abbrev PyDict := List (Str × Str)

/-- Dictionary lookup (`d[k]` / `d.get(k)`). -/
def dlookup (d : PyDict) (k : Str) : Option Str :=
  (d.find? (fun p => p.1 = k)).map Prod.snd

/-- Dictionary membership (`k in d`). -/
def dcontains (d : PyDict) (k : Str) : Bool :=
  d.any (fun p => p.1 = k)

/-- `d[k] = v`: overwrite in place when the key exists (keeping its
position), otherwise append. -/
def dset (d : PyDict) (k : Str) (v : Str) : PyDict :=
  if dcontains d k then d.map (fun p => if p.1 = k then (k, v) else p)
  else d ++ [(k, v)]

/-- `d.update(upd)`. -/
def dupdate (d : PyDict) (upd : PyDict) : PyDict :=
  upd.foldl (fun acc p => dset acc p.1 p.2) d

/-- `d.setdefault(k, v)`. -/
def dsetdefault (d : PyDict) (k : Str) (v : Str) : PyDict :=
  if dcontains d k then d else d ++ [(k, v)]

/-- The rendering of one parameter inside `impl.format_parameters`: the
receiver `self` and undocumented parameters produce nothing; `*args` and
`**kwargs` render the bare starred name; standard parameters render
`name :`, the humanized type, and the optionality suffix. -/
def renderParamBlock (parameters : PyDict) (param : PyParam) : Str :=
  if param.name = strL "self" then []
  else
    match dlookup parameters param.name with
    | none => []
    | some param_doc =>
      let head :=
        match param.kind with
        | .varPositional => '*' :: param.name
        | .varKeyword => '*' :: '*' :: param.name
        | .standard =>
          param.name ++ strL " :" ++
          (match param.ann with
           | some t => ' ' :: format_type t
           | none => []) ++
          (match param.default with
           | some d =>
             (if param.ann.isSome then strL "," else []) ++ strL " optional" ++
             (if d ≠ PyVal.vNone then strL ", default: " ++ reprVal d else [])
           | none => [])
      head ++ ['\n'] ++ stripNl (format_indented_paragraphs param_doc) ++ ['\n']

/-- `impl.format_parameters`: parameters render in signature order. -/
def format_parameters (parameters : PyDict) (sig : PySig) : Str :=
  (sig.params.map (renderParamBlock parameters)).flatten

/-- `impl.format_raises` (also used for the Warns section). -/
def format_raises (raises : PyDict) : Str :=
  (raises.map (fun p => p.1 ++ ['\n'] ++ format_indented_paragraph p.2)).flatten

/-- The `see_also` argument: a single name, a sequence of names, or a
mapping of names to optional descriptions.  Callables are modelled by
their rendered name (`format_maybe_code`). -/
inductive SeeAlso where
  | one (s : Str)
  | seq (l : List Str)
  | mapping (m : List (Str × Option Str))

/-- One entry of a `see_also` mapping. -/
def seeAlsoEntry (p : Str × Option Str) : Str :=
  pyStrip p.1 ++
  (match p.2 with
   | some d =>
     if d.isEmpty then ['\n']
     else
       strL " :" ++
       (if d.length < 70 then ' ' :: punctuate (pyStrip d) ++ ['\n']
        else ['\n'] ++ format_indented_paragraph d)
   | none => ['\n'])

/-- `impl.format_see_also`. -/
def format_see_also : SeeAlso → Str
  | .seq l => (l.map (fun item => pyStrip item ++ ['\n'])).flatten
  | .mapping m => (m.map seeAlsoEntry).flatten
  | .one s => pyStrip s ++ ['\n']

/-- `impl.format_references`. -/
def format_references (references : PyDict) : Str :=
  (references.map (fun p =>
    strL ".. [" ++ p.1 ++ strL "] " ++ pyStrip (format_indented_paragraph p.2) ++ ['\n'])).flatten

/-- `impl.unpack_optional`: unwrap a two-member union ending in `NoneType`
(the `Optional`-origin branch of the source is dead code because
`get_origin` never yields `Optional`). -/
def unpack_optional (t : PyType) : PyType :=
  match t with
  | .unionOf [a, .noneType] => a
  | t => t

/-- `impl.get_annotated_doc` with default `None`: the extracted doc hint of
an `Annotated` type when its second argument is a string. -/
def get_annotated_doc : PyType → Option Str
  | .annotated _ (some d) => some d
  | _ => none

/-- `get_annotated_doc(t, True)` as used in the auto-returns path. -/
def annotatedDocOrFlag (t : PyType) : RDoc :=
  match get_annotated_doc t with
  | some d => .s d
  | none => .flagTrue

/-- `impl.auto_returns_single`. -/
def auto_returns_single (returns : Option RetInput) (ann : PyType) : RetDocPayload :=
  match returns with
  | none =>
    match annotatedDocOrFlag ann with
    | .s d => .text d
    | .flagTrue => .flagTrue
  | some (.text s) => .text s
  | some (.names ns) => .names ns
  | some (.mapping m) => .named (toNamed m)

/-- `impl.auto_returns_multi` (for a fixed-tuple return annotation): a
missing `returns` becomes integer-named slots, a tuple of names is zipped
against the component types, any other payload passes through. -/
def auto_returns_multi (returns : Option RetInput) (retArgs : List PyType) :
    RetDocPayload :=
  match returns with
  | none =>
    .named (((List.range retArgs.length).zip retArgs).map
      (fun p => (RKey.i p.1, annotatedDocOrFlag p.2)))
  | some (.names ns) =>
    .named ((ns.zip retArgs).map (fun p => (RKey.s p.1, annotatedDocOrFlag p.2)))
  | some (.text s) => .text s
  | some (.mapping m) => .named (toNamed m)

/-- `impl.auto_returns`: dispatch on whether the return annotation is a
fixed tuple (`ret_orig in (Tuple, tuple) and Ellipsis not in ret_args`). -/
def auto_returns (returns : Option RetInput) (ann : PyType) : RetDocPayload :=
  match ann with
  | .fixedTuple args => auto_returns_multi returns args
  | t => auto_returns_single returns t

/-- Lift a caller `returns` value to the internal payload unchanged. -/
def retInputPayload : RetInput → RetDocPayload
  | .text s => .text s
  | .names ns => .names ns
  | .mapping m => .named (toNamed m)

/-- Is the annotation the `None` / `NoneType` annotation? -/
def isNoneTy : PyType → Bool
  | .noneType => true
  | _ => false

/-- Lines 482–492 of `impl.py`: run `auto_returns` when a usable (non-`None`)
return annotation is present and `yields` was not given; otherwise pass the
caller's `returns` through. -/
def computeReturnsDoc (returns : Option RetInput) (yields : Option SimplePayload)
    (retAnn : Option PyType) : Option RetDocPayload :=
  match retAnn with
  | some t =>
    if ¬ isNoneTy t ∧ yields.isNone then some (auto_returns returns t)
    else returns.map retInputPayload
  | none => returns.map retInputPayload

/-- Truthiness of the caller's `returns` argument (`if returns`). -/
def truthyRetInput : Option RetInput → Bool
  | none => false
  | some (.text s) => ¬ s.isEmpty
  | some (.names ns) => ¬ ns.isEmpty
  | some (.mapping m) => ¬ m.isEmpty

/-- Truthiness of a `yields` / `receives` argument. -/
def truthySimple : Option SimplePayload → Bool
  | none => false
  | some (.text s) => ¬ s.isEmpty
  | some (.named m) => ¬ m.isEmpty

/-- Truthiness of the internal returns payload (`if returns_doc`). -/
def truthyPayload : RetDocPayload → Bool
  | .flagTrue => true
  | .text s => ¬ s.isEmpty
  | .named m => ¬ m.isEmpty
  | .names ns => ¬ ns.isEmpty

/-- Truthiness of an optional string argument. -/
def truthyOptStr : Option Str → Bool
  | none => false
  | some s => ¬ s.isEmpty

/-- Truthiness of an optional dictionary argument. -/
def truthyOptDict : Option PyDict → Bool
  | none => false
  | some d => ¬ d.isEmpty

/-- Truthiness of the `see_also` argument. -/
def truthySeeAlso : Option SeeAlso → Bool
  | none => false
  | some (.one s) => ¬ s.isEmpty
  | some (.seq l) => ¬ l.isEmpty
  | some (.mapping m) => ¬ m.isEmpty

/-- The arguments of the `_doc` decorator factory.  `include_extras` only
affects the `__annotations__` attribute of the decorated function, not the
docstring, and is not modelled. -/
structure DocRequest where
  summary : Str := []
  deprecation : Option (Str × Str) := none
  extended_summary : Option Str := none
  parameters : Option PyDict := none
  returns : Option RetInput := none
  yields : Option SimplePayload := none
  receives : Option SimplePayload := none
  other_parameters : Option PyDict := none
  raises : Option PyDict := none
  warns : Option PyDict := none
  warnings : Option Str := none
  see_also : Option SeeAlso := none
  notes : Option Str := none
  references : Option PyDict := none
  examples : Option Str := none

/-- One step of the decorator's `Annotated`-hint collection loop: when a
parameter's (optional-unwrapped) annotation carries a truthy string hint,
`setdefault` it under the parameter's name. -/
def buildStep (acc : PyDict) (param : PyParam) : PyDict :=
  match param.ann with
  | some t =>
    match get_annotated_doc (unpack_optional t) with
    | some d => if ¬ d.isEmpty then dsetdefault acc param.name d else acc
    | none => acc
  | none => acc

/-- The `param_docs` dictionary of the decorator: a copy of the caller's
`parameters` augmented (via `setdefault`, in signature order) with doc
hints carried by `Annotated` parameter annotations. -/
def build_param_docs (parameters : Option PyDict) (sig : PySig) : PyDict :=
  let pd := match parameters with
    | some p => if ¬ p.isEmpty then dupdate [] p else []
    | none => []
  sig.params.foldl buildStep pd

/-- The `other_param_docs` dictionary of the decorator. -/
def build_other_param_docs (other_parameters : Option PyDict) : PyDict :=
  match other_parameters with
  | some p => if ¬ p.isEmpty then dupdate [] p else []
  | none => []

/-- The missing-parameter check of the decorator (lines 494–500): the first
signature parameter, in declaration order, that is not named `self` and has
no documentation in `param_docs ∪ other_param_docs`. -/
def firstMissing (allDocs : PyDict) (sig : PySig) : Option Str :=
  sig.params.findSome? (fun p =>
    if p.name ≠ strL "self" ∧ ¬ dcontains allDocs p.name then some p.name else none)

/-- The body of one section with its header and dash underline. -/
def sectionBlock (title : Str) (body : Str) : Str :=
  title ++ ['\n'] ++ List.replicate title.length '-' ++ ['\n'] ++ body

/-- The Returns section computation (section emission may fail inside
`format_returns`). -/
def sectionReturnsE (returns_doc : Option RetDocPayload) (retAnn : Option PyType) :
    Except DocError Str :=
  match returns_doc with
  | some rd =>
    if truthyPayload rd then
      match format_returns rd retAnn with
      | .error e => .error e
      | .ok r => .ok (sectionBlock (strL "Returns") r)
    else .ok []
  | none => .ok []

/-- The Yields section computation. -/
def sectionYieldsE (yields : Option SimplePayload) (retAnn : Option PyType) :
    Except DocError Str :=
  if truthySimple yields then
    match yields with
    | some y =>
      match format_yields y retAnn with
      | .error e => .error e
      | .ok r => .ok (sectionBlock (strL "Yields") r)
    | none => .ok []
  else .ok []

/-- The Receives section computation. -/
def sectionReceivesE (receives : Option SimplePayload) (retAnn : Option PyType) :
    Except DocError Str :=
  if truthySimple receives then
    match receives with
    | some rc =>
      match format_receives rc retAnn with
      | .error e => .error e
      | .ok r => .ok (sectionBlock (strL "Receives") r)
    | none => .ok []
  else .ok []

/-- The infallible sections of the docstring body, assembled in canonical
order with the three fallible section texts spliced in. -/
def assembleBody (req : DocRequest) (sig : PySig) (param_docs other_param_docs : PyDict)
    (sReturns sYields sReceives : Str) : Str :=
  let sSummary := if ¬ req.summary.isEmpty then format_paragraph req.summary ++ ['\n'] else []
  let sDeprecation := match req.deprecation with
    | some (ver, reason) =>
      strL ".. deprecated:: " ++ ver ++ ['\n'] ++
        format_indented_paragraph reason ++ ['\n']
    | none => []
  let sExtended := match req.extended_summary with
    | some es => if ¬ es.isEmpty then format_paragraph es ++ ['\n'] else []
    | none => []
  let sParams := if ¬ param_docs.isEmpty then
      sectionBlock (strL "Parameters") (format_parameters param_docs sig) ++ ['\n']
    else []
  let sOther := if ¬ other_param_docs.isEmpty then
      sectionBlock (strL "Other Parameters") (format_parameters other_param_docs sig) ++ ['\n']
    else []
  let sRaises := match req.raises with
    | some r => if ¬ r.isEmpty then sectionBlock (strL "Raises") (format_raises r) ++ ['\n'] else []
    | none => []
  let sWarns := match req.warns with
    | some w => if ¬ w.isEmpty then sectionBlock (strL "Warns") (format_raises w) ++ ['\n'] else []
    | none => []
  let sWarnings := match req.warnings with
    | some w => if ¬ w.isEmpty then sectionBlock (strL "Warnings") (format_paragraph w) ++ ['\n'] else []
    | none => []
  let sSeeAlso := if truthySeeAlso req.see_also then
      match req.see_also with
      | some sa => sectionBlock (strL "See Also") (format_see_also sa) ++ ['\n']
      | none => []
    else []
  let sNotes := match req.notes with
    | some n => if ¬ n.isEmpty then sectionBlock (strL "Notes") (format_paragraphs n) else []
    | none => []
  let sReferences := match req.references with
    | some r => if ¬ r.isEmpty then sectionBlock (strL "References") (format_references r) ++ ['\n'] else []
    | none => []
  let sExamples := match req.examples with
    | some e => if ¬ e.isEmpty then sectionBlock (strL "Examples") (format_paragraphs e) else []
    | none => []
  sSummary ++ sDeprecation ++ sExtended ++ sParams ++ sReturns ++
    sYields ++ sReceives ++ sOther ++ sRaises ++ sWarns ++ sWarnings ++
    sSeeAlso ++ sNotes ++ sReferences ++ sExamples

/-- The decorator body (`impl._doc.decorator`): build the parameter
dictionaries, run the auto-returns step, check for missing parameter
documentation, then assemble the sections in canonical order (failing on
the first offending section, in section order) and clean the result.
Attaching `__doc__` / `__annotations__` to the function object is the
identity on the computed text and is not modelled. -/
def decorate (req : DocRequest) (sig : PySig) : Except DocError Str :=
  let param_docs := build_param_docs req.parameters sig
  let other_param_docs := build_other_param_docs req.other_parameters
  let returns_doc := computeReturnsDoc req.returns req.yields sig.retAnn
  let all_param_docs := dupdate (dupdate [] param_docs) other_param_docs
  match firstMissing all_param_docs sig with
  | some e => .error (.paramNotDocumented e)
  | none =>
    match sectionReturnsE returns_doc sig.retAnn with
    | .error e => .error e
    | .ok sReturns =>
      match sectionYieldsE req.yields sig.retAnn with
      | .error e => .error e
      | .ok sYields =>
        match sectionReceivesE req.receives sig.retAnn with
        | .error e => .error e
        | .ok sReceives =>
          .ok ('\n' :: cleandoc
            (assembleBody req sig param_docs other_param_docs sReturns sYields sReceives)
            ++ ['\n'])

/-- `impl._doc`: the sanity checks performed before the decorator is even
constructed, then the decorator body. -/
def doc_main (req : DocRequest) (sig : PySig) : Except DocError Str :=
  if truthyRetInput req.returns ∧ truthySimple req.yields then
    .error .conflictingReturnYield
  else if truthySimple req.receives ∧ ¬ truthySimple req.yields then
    .error .receivesWithoutYields
  else decorate req sig

/-- The per-paragraph branch as described by the specification, with a
configurable wrap width (the specification claims a default of 79
columns). -/
def paraBranchW (width : Nat) (p : Str) : Str :=
  if isVerbatimPara p then p ++ strL "\n\n"
  else fill width (punctuate p) ++ strL "\n\n"

/-- The paragraph formatter as described by the specification, with a
configurable wrap width. -/
def format_paragraphs_specW (width : Nat) (s : Str) : Str :=
  ((splitP (dedent (stripNl s))).map (paraBranchW width)).flatten

/-- The declared arity of a named multi-value payload, as stated by the
claim: `N` itself when no type is declared, the element count for a
non-empty fixed tuple, and `1` otherwise. -/
def claimArity (ann : Option PyType) (n : Nat) : Nat :=
  match ann with
  | none => n
  | some (.fixedTuple (t :: ts)) => (t :: ts).length
  | some _ => 1

/-- Remove every entry with the given key from a dictionary. -/
def eraseKey (d : PyDict) (k : Str) : PyDict :=
  d.filter (fun p => decide (p.1 ≠ k))

/-- Does the string avoid two consecutive newline characters? -/
def noDoubleNl : Str → Bool
  | '\n' :: '\n' :: _ => false
  | _ :: rest => noDoubleNl rest
  | [] => true

/-- Characters other than the whitespace characters rewritten by
`textwrap`'s whitespace munging. -/
def notSpecialWs (c : Char) : Bool :=
  ¬ (c = '\t' || c = '\n' || c = '\x0b' || c = '\x0c' || c = '\r')

/-- A request carrying only a summary and a parameters dictionary (all
other sections absent), as used by the parameter-completeness statements. -/
def paramsOnlyReq (su : Str) (d : Option PyDict) : DocRequest :=
  { summary := su, parameters := d }

/-- An input is *normalized* for the idempotence statement when: it carries
no outer newlines and no removable indentation; each blank-line-separated
paragraph avoids double newlines, does not end in a newline, and has no
whitespace-only lines; and each non-verbatim paragraph uses no
tab/newline/form-feed characters, survives `punctuate` non-trivially, and
fits the 70-column wrap width after punctuation. -/
def NormalizedInput (x : Str) : Prop :=
  stripNl x = x ∧ dedent x = x ∧
  ∀ y ∈ splitP x,
    noDoubleNl y = true ∧ y.getLast? ≠ some '\n' ∧
    (∀ l ∈ y.splitOn '\n', isWsOnlyLine l = false) ∧
    (isVerbatimPara y = false →
      (∀ c ∈ y, notSpecialWs c = true) ∧ punctuate y ≠ [] ∧
        (punctuate y).length ≤ 70)

/-- The declared `Tuple[str, int]` return annotation of the claimed
end-to-end scenario. -/
def c3TupleAnn : Option PyType :=
  some (.fixedTuple [.cls (strL "str"), .cls (strL "int")])

/-- The named returns payload of the scenario, inserted in the order
`eggs`, `spam` (the reverse of the declared component order). -/
def c3RevPayload : NamedPayload :=
  toNamed [(strL "eggs", strL "Yum."), (strL "spam", strL "Ham.")]

/-- A parameter with a default value and no declared type. -/
def c4Param : PyParam :=
  { name := strL "bar", default := some (.lit (.i 42)) }

/-- Documentation for `c4Param`. -/
def c4Docs : PyDict := [(strL "bar", strL "This is very bar.")]

/-- Two words of 40 and 35 letters: once punctuated they need 77 columns,
so a 79-column wrap keeps one line while the real 70-column wrap breaks. -/
def c5Input : Str :=
  List.replicate 40 'a' ++ [' '] ++ List.replicate 35 'b'

/-- A request documenting only a parameter that is absent from the
signature. -/
def c7Req : DocRequest :=
  { summary := strL "A function."
    parameters := some [(strL "spam", strL "Not in signature.")] }

/-- The same request with the surplus entry removed. -/
def c7ReqErased : DocRequest := { summary := strL "A function." }

/-- A signature with no parameters. -/
def emptySig : PySig := { params := [] }

/-- A 68-letter word followed by two spaces and a colon: formatting drops
the double space at a line break, and the second pass re-joins the line. -/
def c9Input : Str :=
  List.replicate 68 'a' ++ strL "  :"

/-- A request supplying both `returns` and `yields` prose. -/
def c6Req : DocRequest :=
  { summary := strL "A function."
    returns := some (.text (strL "Something."))
    yields := some (.text (strL "Something else.")) }

/-- The per-paragraph output of `format_paragraphs` before the trailing
blank line: verbatim paragraphs unchanged, others punctuated (the filled
form, which on normalized input coincides with the punctuated form). -/
def outCore (p : Str) : Str :=
  if isVerbatimPara p then p else punctuate p

/-! ### Claim C8: literal-enumeration rendering -/

/-- C8, counterexample: a `Literal` with an empty value list does not
render as `"{}"`.  The guard `t_args` in `impl.format_type` sends it to the
`repr` fall-through, which renders the bare name `Literal`. -/
theorem claim8_empty_literal_counterexample :
    format_type (.literalOf []) = strL "Literal" ∧
    format_type (.literalOf []) ≠ strL "\x7b\x7d" := by
  refine ⟨rfl, ?_⟩
  decide

/-- C8, amended: a `LiteralOf(values)` with a *non-empty* value list
renders as `{` followed by the comma-joined quoted reprs of the values
followed by `}`; the empty value list falls through to the raw `repr`
rendering `Literal`. -/
theorem claim8_literal_rendering (vals : List PyLit) (h : vals ≠ []) :
    format_type (.literalOf vals) =
      strL "\x7b" ++ joinComma (vals.map reprLit) ++ strL "\x7d" := by
  match vals, h with
  | v :: vs, _ => rfl

/-- Witness for `claim8_literal_rendering` at a one-element literal. -/
theorem claim8_literal_rendering_witness :
    [PyLit.s (strL "foo")] ≠ [] ∧
    format_type (.literalOf [PyLit.s (strL "foo")]) =
      strL "\x7b" ++ joinComma ([PyLit.s (strL "foo")].map reprLit) ++ strL "\x7d" :=
  ⟨by decide, claim8_literal_rendering [PyLit.s (strL "foo")] (by decide)⟩

/-! ### Claim C3: named returns against a declared tuple -/

/-- C3, counterexample: with the declared return type `Tuple[str, int]` and
the named payload inserted as `eggs`, `spam`, the Returns slots are
`eggs : str` then `spam : int` — the names follow documentation insertion
order, not declared order, so the claimed output `spam : str` then
`eggs : int` "regardless of the map's insertion order" is false. -/
theorem claim3_insertion_order_counterexample :
    format_returns_named c3RevPayload c3TupleAnn =
      .ok (strL "eggs : str\n    Yum.\nspam : int\n    Ham.\n\n") ∧
    (match format_returns_named c3RevPayload c3TupleAnn with
     | .ok s => containsSub (strL "spam : str") s
     | .error _ => true) = false := by
  refine ⟨rfl, ?_⟩
  decide

/-- C3, amended: against `Tuple[str, int]`, a two-entry named payload
renders its names in documentation insertion order zipped against the
declared component types in declaration order; with insertion order
`spam`, `eggs` this gives `spam : str` then `eggs : int`, and reversing
the insertion order swaps the names but not the types. -/
theorem claim3_declared_types_order (n1 n2 d1 d2 : Str) :
    format_returns_named (toNamed [(n1, d1), (n2, d2)]) c3TupleAnn =
      .ok (pyStrip n1 ++ strL " : str" ++ ['\n'] ++ format_indented_paragraph d1 ++
           (pyStrip n2 ++ strL " : int" ++ ['\n'] ++ format_indented_paragraph d2) ++
           ['\n']) := by
  have h1 : format_type (PyType.cls ['s', 't', 'r']) = ['s', 't', 'r'] := rfl
  have h2 : format_type (PyType.cls ['i', 'n', 't']) = ['i', 'n', 't'] := rfl
  simp [format_returns_named, returnTypesOf, renderSlots, renderSlot, toNamed,
    slotDocPart, c3TupleAnn, strL, h1, h2, List.append_assoc]

/-! ### Claim C4: optionality suffix of an untyped defaulted parameter -/

/-- C4, counterexample: a parameter with default `42` and no declared type
renders the suffix `optional, default: 42` (comma-colon form); the claimed
`optional, default=` suffix does not occur. -/
theorem claim4_default_suffix_counterexample :
    containsSub (strL "optional, default=")
      (format_parameters c4Docs { params := [c4Param] }) = false ∧
    containsSub (strL "optional, default: 42")
      (format_parameters c4Docs { params := [c4Param] }) = true := by
  constructor
  · decide
  · decide

/-- C4, amended: a documented parameter with a default value and no
declared type renders `name : optional` with no leading type; when the
default is not `None`, `, default: <repr>` follows; a `None` default gets
no `default:` part at all. -/
theorem claim4_default_suffix (name doc : Str) (v : PyLit)
    (h : name ≠ strL "self") :
    format_parameters [(name, doc)]
        { params := [{ name := name, default := some (.lit v) }] } =
      name ++ strL " : optional, default: " ++ reprLit v ++ ['\n'] ++
        stripNl (format_indented_paragraphs doc) ++ ['\n'] ∧
    format_parameters [(name, doc)]
        { params := [{ name := name, default := some .vNone }] } =
      name ++ strL " : optional" ++ ['\n'] ++
        stripNl (format_indented_paragraphs doc) ++ ['\n'] := by
  simp only [strL] at h
  constructor <;>
    simp [format_parameters, renderParamBlock, h, dlookup, List.find?,
      reprVal, strL, List.append_assoc]

/-- Witness for `claim4_default_suffix` at `bar` with default `42`. -/
theorem claim4_default_suffix_witness :
    strL "bar" ≠ strL "self" ∧
    format_parameters [(strL "bar", strL "Ok.")]
        { params := [{ name := strL "bar", default := some (.lit (.i 42)) }] } =
      strL "bar" ++ strL " : optional, default: " ++ reprLit (.i 42) ++ ['\n'] ++
        stripNl (format_indented_paragraphs (strL "Ok.")) ++ ['\n'] :=
  ⟨by decide,
   (claim4_default_suffix (strL "bar") (strL "Ok.") (.i 42) (by decide)).1⟩

/-! ### Claim C6: returns and yields are mutually exclusive -/

/-- C6: supplying both a (truthy) `returns` payload and a (truthy)
`yields` payload fails with the conflicting-return-yield error; the check
runs in `_doc` before any section is assembled, so the result carries no
text. -/
theorem claim6_conflicting_return_yield (req : DocRequest) (sig : PySig)
    (hr : truthyRetInput req.returns = true)
    (hy : truthySimple req.yields = true) :
    doc_main req sig = .error .conflictingReturnYield := by
  unfold doc_main
  simp [hr, hy]

/-- Witness for `claim6_conflicting_return_yield` at a concrete request. -/
theorem claim6_conflicting_return_yield_witness :
    truthyRetInput c6Req.returns = true ∧ truthySimple c6Req.yields = true ∧
    doc_main c6Req emptySig = .error .conflictingReturnYield :=
  ⟨by decide, by decide,
   claim6_conflicting_return_yield c6Req emptySig (by decide) (by decide)⟩

/-! ### Claim C1: the arity law -/

/-- The resolved slot-type list has exactly the arity stated by the claim. -/
theorem returnTypesOf_length (ann : Option PyType) (n : Nat) :
    (returnTypesOf ann n).length = claimArity ann n := by
  match ann with
  | none => simp [returnTypesOf, claimArity]
  | some t =>
    cases t <;> simp [returnTypesOf, claimArity]
    case fixedTuple args => cases args <;> simp

/-- Rendering string-keyed slots never fails (the `attributeError` corner
needs an integer key). -/
theorem renderSlots_toNamed_ok (m : List (Str × Str)) :
    ∀ types : List (Option PyType), ∃ s, renderSlots (toNamed m) types = .ok s := by
  induction m with
  | nil =>
    intro types
    refine ⟨[], ?_⟩
    cases types <;> rfl
  | cons p rest ih =>
    intro types
    match types with
    | [] => exact ⟨[], rfl⟩
    | ty :: tys =>
      obtain ⟨r, hr⟩ := ih tys
      match ty with
      | none =>
        refine ⟨(pyStrip p.1 ++ strL " :" ++ ['\n'] ++ slotDocPart (.s p.2)) ++ r, ?_⟩
        simp only [toNamed, List.map_cons] at hr ⊢
        rw [renderSlots, hr]
        rfl
      | some t =>
        refine ⟨(pyStrip p.1 ++ strL " : " ++ format_type t ++ ['\n'] ++
          slotDocPart (.s p.2)) ++ r, ?_⟩
        simp only [toNamed, List.map_cons] at hr ⊢
        rw [renderSlots, hr]
        rfl

/-- C1: for a string-keyed named payload of size `N`, reconciliation
succeeds exactly when `N` equals the declared arity `A` (`A = N` with no
declared type, `A` = the element count for a non-empty fixed tuple, `A = 1`
otherwise, including variadic tuples); `N > A` fails with the
more-values-documented error and `N < A` with the more-types error. -/
theorem claim1_arity_law (m : List (Str × Str)) (ann : Option PyType) :
    ((∃ s, format_returns_named (toNamed m) ann = .ok s) ↔
      m.length = claimArity ann m.length) ∧
    (claimArity ann m.length < m.length →
      format_returns_named (toNamed m) ann =
        .error (.moreValuesThanTypes ((toNamed m).map Prod.fst)
          (returnTypesOf ann m.length))) ∧
    (m.length < claimArity ann m.length →
      format_returns_named (toNamed m) ann =
        .error (.moreTypesThanValues (returnTypesOf ann m.length)
          ((toNamed m).map Prod.fst))) := by
  have hlen : (toNamed m).length = m.length := by simp [toNamed]
  have hA := returnTypesOf_length ann m.length
  have hgt_case : claimArity ann m.length < m.length →
      format_returns_named (toNamed m) ann =
        .error (.moreValuesThanTypes ((toNamed m).map Prod.fst)
          (returnTypesOf ann m.length)) := by
    intro h
    simp only [format_returns_named, hlen, hA]
    simp [h]
  have hlt_case : m.length < claimArity ann m.length →
      format_returns_named (toNamed m) ann =
        .error (.moreTypesThanValues (returnTypesOf ann m.length)
          ((toNamed m).map Prod.fst)) := by
    intro h
    simp only [format_returns_named, hlen, hA]
    simp [h, Nat.not_lt.mpr (Nat.le_of_lt h)]
  have heq_case : m.length = claimArity ann m.length →
      ∃ s, format_returns_named (toNamed m) ann = .ok s := by
    intro h
    obtain ⟨s, hs⟩ := renderSlots_toNamed_ok m (returnTypesOf ann m.length)
    refine ⟨s ++ ['\n'], ?_⟩
    simp only [format_returns_named, hlen, hA]
    simp [h.symm, hs]
  refine ⟨⟨?_, heq_case⟩, hgt_case, hlt_case⟩
  rintro ⟨s, hs⟩
  rcases Nat.lt_trichotomy m.length (claimArity ann m.length) with hlt | heq | hgt
  · rw [hlt_case hlt] at hs
    exact absurd hs (by simp)
  · exact heq
  · rw [hgt_case hgt] at hs
    exact absurd hs (by simp)

/-- Witness for `claim1_arity_law`: two documented values against a single
declared type fail with the more-values error. -/
theorem claim1_arity_law_witness :
    claimArity (some (.cls (strL "str"))) 2 < 2 ∧
    format_returns_named
        (toNamed [(strL "spam", strL "a"), (strL "eggs", strL "b")])
        (some (.cls (strL "str"))) =
      .error (.moreValuesThanTypes
        ((toNamed [(strL "spam", strL "a"), (strL "eggs", strL "b")]).map Prod.fst)
        (returnTypesOf (some (.cls (strL "str"))) 2)) :=
  ⟨by decide,
   (claim1_arity_law [(strL "spam", strL "a"), (strL "eggs", strL "b")]
     (some (.cls (strL "str")))).2.1 (by decide)⟩

/-! ### Claim C10: the receiver is exactly the name `self` -/

/-- `dset` preserves or adds exactly its key. -/
theorem dcontains_dset (d : PyDict) (k' : Str) (v : Str) (k : Str) :
    dcontains (dset d k' v) k = (dcontains d k || decide (k' = k)) := by
  have hkeys : ∀ l : PyDict, (l.map (fun p => if p.1 = k' then (k', v) else p)).any
      (fun p => decide (p.1 = k)) = l.any (fun p => decide (p.1 = k)) := by
    intro l
    induction l with
    | nil => rfl
    | cons q l ih =>
      simp only [List.map_cons, List.any_cons, ih]
      by_cases hq : q.1 = k'
      · simp [hq]
      · simp [hq]
  unfold dset
  split
  · rename_i hc
    unfold dcontains at hc ⊢
    rw [hkeys]
    by_cases hk : k' = k
    · subst hk
      simp [hc]
    · simp [hk]
  · unfold dcontains
    simp [List.any_append]

/-- Membership in an updated dictionary is membership in either part. -/
theorem dcontains_dupdate (u : PyDict) (d : PyDict) (k : Str) :
    dcontains (dupdate d u) k = (dcontains d k || dcontains u k) := by
  induction u generalizing d with
  | nil => simp [dupdate, dcontains]
  | cons p u' ih =>
    show dcontains (dupdate (dset d p.1 p.2) u') k = _
    rw [ih, dcontains_dset]
    unfold dcontains
    simp [Bool.or_assoc, Bool.or_comm, Bool.or_left_comm, eq_comm]

/-- The parameter named `self` renders nothing. -/
theorem renderParamBlock_self (d : PyDict) (p : PyParam)
    (h : p.name = strL "self") : renderParamBlock d p = [] := by
  unfold renderParamBlock
  simp [h]

/-- C10: a parameter is the excluded receiver exactly when its name is
`self`: dropping all `self`-named parameters changes neither the rendered
Parameters body nor the missing-documentation check, while an undocumented
first parameter with any other name (for example `cls`) fails compilation
with an error naming it. -/
theorem claim10_self_receiver :
    (∀ (d : PyDict) (ps : List PyParam) (ra : Option PyType),
      format_parameters d { params := ps, retAnn := ra } =
        format_parameters d
          { params := ps.filter (fun p => decide (p.name ≠ strL "self")), retAnn := ra }) ∧
    (∀ (d : PyDict) (ps : List PyParam) (ra : Option PyType),
      firstMissing d { params := ps, retAnn := ra } =
        firstMissing d
          { params := ps.filter (fun p => decide (p.name ≠ strL "self")), retAnn := ra }) ∧
    (∀ (su : Str) (d : PyDict) (p : PyParam) (rest : List PyParam),
      p.name ≠ strL "self" →
      dcontains (build_param_docs (some d) { params := p :: rest, retAnn := none })
          p.name = false →
      doc_main (paramsOnlyReq su (some d)) { params := p :: rest, retAnn := none } =
        .error (.paramNotDocumented p.name)) := by
  refine ⟨?_, ?_, ?_⟩
  · intro d ps ra
    induction ps with
    | nil => rfl
    | cons q qs ih =>
      by_cases hq : q.name = strL "self"
      · simpa [format_parameters, List.filter_cons, hq,
          renderParamBlock_self d q hq] using ih
      · simpa [format_parameters, List.filter_cons, hq] using ih
  · intro d ps ra
    induction ps with
    | nil => rfl
    | cons q qs ih =>
      by_cases hq : q.name = strL "self"
      · simpa [firstMissing, List.filter_cons, hq] using ih
      · by_cases hc : dcontains d q.name
        · simpa [firstMissing, List.filter_cons, hq, hc] using ih
        · simp [firstMissing, List.filter_cons, hq, hc]
  · intro su d p rest hself hmiss
    have hother : build_other_param_docs none = [] := rfl
    have hall : dcontains
        (dupdate (dupdate [] (build_param_docs (some d)
          { params := p :: rest, retAnn := none })) (build_other_param_docs none))
        p.name = false := by
      rw [hother]
      show dcontains (dupdate [] (build_param_docs (some d)
        { params := p :: rest, retAnn := none })) p.name = false
      rw [dcontains_dupdate]
      simp [dcontains, hmiss]
      simpa [dcontains] using hmiss
    have hFM : firstMissing
        (dupdate (dupdate [] (build_param_docs (some d)
          { params := p :: rest, retAnn := none })) (build_other_param_docs none))
        { params := p :: rest, retAnn := none } = some p.name := by
      simp [firstMissing, hself, hall]
    simp [doc_main, paramsOnlyReq, truthyRetInput, truthySimple, decorate, hFM]

/-- Witness for `claim10_self_receiver`: an undocumented first parameter
named `cls` fails compilation naming it. -/
theorem claim10_self_receiver_witness :
    strL "cls" ≠ strL "self" ∧
    doc_main (paramsOnlyReq (strL "A function.") (some []))
        { params := [{ name := strL "cls" }], retAnn := none } =
      .error (.paramNotDocumented (strL "cls")) :=
  ⟨by decide,
   claim10_self_receiver.2.2 (strL "A function.") [] { name := strL "cls" } []
     (by decide) (by decide)⟩

/-! ### Claim C7: surplus documented names -/

/-- Unfolding lemma for `dlookup` at a cons cell. -/
theorem dlookup_cons (p : Str × Str) (rest : PyDict) (name : Str) :
    dlookup (p :: rest) name = if p.1 = name then some p.2 else dlookup rest name := by
  unfold dlookup
  by_cases hp : p.1 = name
  · simp [List.find?, hp]
  · simp [List.find?, hp]

/-- Unfolding lemma for `dcontains` at a cons cell. -/
theorem dcontains_cons (p : Str × Str) (rest : PyDict) (name : Str) :
    dcontains (p :: rest) name = (decide (p.1 = name) || dcontains rest name) := by
  simp [dcontains]

/-- Unfolding lemma for `eraseKey` at a cons cell. -/
theorem eraseKey_cons (p : Str × Str) (rest : PyDict) (k : Str) :
    eraseKey (p :: rest) k =
      if p.1 = k then eraseKey rest k else p :: eraseKey rest k := by
  unfold eraseKey
  rw [List.filter_cons]
  by_cases hp : p.1 = k <;> simp [hp]

/-- Removing the key `k` leaves lookups of other keys unchanged. -/
theorem dlookup_eraseKey (d : PyDict) (k name : Str) (h : name ≠ k) :
    dlookup (eraseKey d k) name = dlookup d name := by
  induction d with
  | nil => rfl
  | cons p rest ih =>
    rw [eraseKey_cons, dlookup_cons]
    by_cases hp : p.1 = k
    · have hpn : ¬ p.1 = name := by rw [hp]; exact fun hh => h hh.symm
      simp [hp, hpn, ih, Ne.symm h]
    · rw [if_neg hp, dlookup_cons, ih]

/-- Removing the key `k` leaves membership of other keys unchanged. -/
theorem dcontains_eraseKey (d : PyDict) (k name : Str) (h : name ≠ k) :
    dcontains (eraseKey d k) name = dcontains d name := by
  induction d with
  | nil => rfl
  | cons p rest ih =>
    rw [eraseKey_cons, dcontains_cons]
    by_cases hp : p.1 = k
    · have hpn : ¬ p.1 = name := by rw [hp]; exact fun hh => h hh.symm
      simp [hp, hpn, ih, Ne.symm h]
    · rw [if_neg hp, dcontains_cons, ih]

/-- `eraseKey` distributes over append. -/
theorem eraseKey_append (a b : PyDict) (k : Str) :
    eraseKey (a ++ b) k = eraseKey a k ++ eraseKey b k := by
  simp [eraseKey, List.filter_append]

/-- A dictionary containing a key is non-empty. -/
theorem dcontains_ne_nil (d : PyDict) (n : Str) (h : dcontains d n = true) :
    d ≠ [] := by
  cases d with
  | nil => simp [dcontains] at h
  | cons p rest => simp

/-- `dsetdefault` preserves membership. -/
theorem dcontains_dsetdefault_mono (acc : PyDict) (k' v n : Str)
    (h : dcontains acc n = true) :
    dcontains (dsetdefault acc k' v) n = true := by
  unfold dsetdefault
  split
  · exact h
  · unfold dcontains at h ⊢
    simp [List.any_append, h]

/-- `dsetdefault` at a key other than `k` commutes with `eraseKey`. -/
theorem dsetdefault_eraseKey (acc : PyDict) (k nm v : Str) (h : nm ≠ k) :
    dsetdefault (eraseKey acc k) nm v = eraseKey (dsetdefault acc nm v) k := by
  unfold dsetdefault
  rw [dcontains_eraseKey acc k nm h]
  split
  · rfl
  · rw [eraseKey_append]
    simp [eraseKey, List.filter_cons, h]

/-- Updating the empty dictionary with a key-distinct dictionary copies
it. -/
theorem dupdate_acc_of_disjoint (u : PyDict) :
    ∀ acc : PyDict, (u.map Prod.fst).Nodup →
      (∀ q ∈ u, dcontains acc q.1 = false) → dupdate acc u = acc ++ u := by
  induction u with
  | nil => intro acc _ _; simp [dupdate]
  | cons p rest ih =>
    intro acc hnd hdisj
    show dupdate (dset acc p.1 p.2) rest = acc ++ p :: rest
    have hc : dcontains acc p.1 = false := hdisj p (by simp)
    have hset : dset acc p.1 p.2 = acc ++ [p] := by
      unfold dset
      simp [hc]
    rw [hset]
    have hnd' : (rest.map Prod.fst).Nodup := by
      simp only [List.map_cons, List.nodup_cons] at hnd
      exact hnd.2
    have hdisj' : ∀ q ∈ rest, dcontains (acc ++ [p]) q.1 = false := by
      intro q hq
      unfold dcontains
      simp [List.any_append]
      constructor
      · have := hdisj q (by simp [hq])
        unfold dcontains at this
        simpa using this
      · simp only [List.map_cons, List.nodup_cons] at hnd
        intro hqp
        exact absurd (hqp ▸ (List.mem_map_of_mem Prod.fst hq)) hnd.1
    rw [ih (acc ++ [p]) hnd' hdisj']
    simp

/-- Updating the empty dictionary with a duplicate-free dictionary copies
it. -/
theorem dupdate_nil_of_nodup (d : PyDict) (hnd : (d.map Prod.fst).Nodup) :
    dupdate [] d = d := by
  have := dupdate_acc_of_disjoint d [] hnd (fun q _ => rfl)
  simpa using this

/-- `eraseKey` preserves key-distinctness. -/
theorem eraseKey_nodup (d : PyDict) (k : Str) (hnd : (d.map Prod.fst).Nodup) :
    ((eraseKey d k).map Prod.fst).Nodup := by
  unfold eraseKey
  exact List.Nodup.sublist ((List.filter_sublist d).map Prod.fst) hnd

/-- The annotated-doc collection of the decorator maps `eraseKey` through,
provided the erased key names no signature parameter. -/
theorem build_param_docs_eraseKey (sig : PySig) (d : PyDict) (k : Str)
    (hnd : (d.map Prod.fst).Nodup)
    (hsig : ∀ q ∈ sig.params, q.name ≠ k)
    (hdne : d ≠ []) (hene : eraseKey d k ≠ []) :
    build_param_docs (some (eraseKey d k)) sig =
      eraseKey (build_param_docs (some d) sig) k := by
  unfold build_param_docs
  have hd : d.isEmpty = false := by simpa [List.isEmpty_iff] using hdne
  have he : (eraseKey d k).isEmpty = false := by simpa [List.isEmpty_iff] using hene
  simp only [hd, he, Bool.false_eq_true, not_false_eq_true, if_true]
  rw [dupdate_nil_of_nodup d hnd, dupdate_nil_of_nodup _ (eraseKey_nodup d k hnd)]
  have : ∀ (ps : List PyParam) (acc : PyDict), (∀ q ∈ ps, q.name ≠ k) →
      ps.foldl buildStep (eraseKey acc k) = eraseKey (ps.foldl buildStep acc) k := by
    intro ps
    induction ps with
    | nil => intro acc _; rfl
    | cons p rest ih =>
      intro acc hps
      simp only [List.foldl_cons]
      have hp : p.name ≠ k := hps p (by simp)
      have hstep : buildStep (eraseKey acc k) p = eraseKey (buildStep acc p) k := by
        unfold buildStep
        cases hann : p.ann with
        | none => rfl
        | some t =>
          cases hga : get_annotated_doc (unpack_optional t) with
          | none => simp [hga]
          | some doc =>
            by_cases hdoc : doc.isEmpty
            · simp [hga, hdoc]
            · simp [hga, hdoc, dsetdefault_eraseKey acc k p.name doc hp]
      rw [hstep]
      exact ih _ (fun q hq => hps q (by simp [hq]))
  exact this sig.params d hsig

/-- `format_parameters` depends on the documentation map only through the
lookups of the signature's parameter names. -/
theorem format_parameters_congr (d₁ d₂ : PyDict) (sig : PySig)
    (h : ∀ q ∈ sig.params, dlookup d₁ q.name = dlookup d₂ q.name) :
    format_parameters d₁ sig = format_parameters d₂ sig := by
  unfold format_parameters
  obtain ⟨ps, ra⟩ := sig
  simp only at h ⊢
  induction ps with
  | nil => rfl
  | cons q rest ih =>
    simp only [List.map_cons, List.flatten_cons]
    rw [ih (fun q' hq' => h q' (by simp [hq']))]
    congr 1
    unfold renderParamBlock
    rw [h q (by simp)]

/-- `firstMissing` depends on the documentation map only through key
membership at the signature's parameter names. -/
theorem firstMissing_congr (d₁ d₂ : PyDict) (sig : PySig)
    (h : ∀ q ∈ sig.params, dcontains d₁ q.name = dcontains d₂ q.name) :
    firstMissing d₁ sig = firstMissing d₂ sig := by
  unfold firstMissing
  obtain ⟨ps, ra⟩ := sig
  simp only at h ⊢
  induction ps with
  | nil => rfl
  | cons q rest ih =>
    simp only [List.findSome?_cons]
    rw [h q (by simp)]
    have hrest := ih (fun q' hq' => h q' (by simp [hq']))
    cases hv : (if q.name ≠ strL "self" ∧ ¬ dcontains d₂ q.name = true
        then some q.name else none) with
    | none => simpa [hv] using hrest
    | some b => simp [hv]

/-- One hint-collection step preserves dictionary membership. -/
theorem dcontains_buildStep_mono (acc : PyDict) (p : PyParam) (n : Str)
    (h : dcontains acc n = true) : dcontains (buildStep acc p) n = true := by
  unfold buildStep
  cases hann : p.ann with
  | none => exact h
  | some t =>
    cases hga : get_annotated_doc (unpack_optional t) with
    | none =>
      simp only [hga]
      exact h
    | some doc =>
      simp only [hga]
      by_cases hdoc : doc.isEmpty
      · simp [hdoc, h]
      · simp [hdoc, dcontains_dsetdefault_mono acc p.name doc n h]

/-- The hint-collection fold preserves dictionary membership. -/
theorem dcontains_foldl_buildStep_mono (ps : List PyParam) (n : Str) :
    ∀ acc : PyDict, dcontains acc n = true →
      dcontains (ps.foldl buildStep acc) n = true := by
  induction ps with
  | nil => intro acc h; exact h
  | cons p rest ih =>
    intro acc h
    exact ih _ (dcontains_buildStep_mono acc p n h)

/-- The built parameter-docs dictionary retains every caller-supplied
key (for a duplicate-free caller dictionary). -/
theorem dcontains_build_param_docs (sig : PySig) (d : PyDict) (n : Str)
    (hnd : (d.map Prod.fst).Nodup) (h : dcontains d n = true) :
    dcontains (build_param_docs (some d) sig) n = true := by
  unfold build_param_docs
  have hdne : d ≠ [] := dcontains_ne_nil d n h
  have hd : d.isEmpty = false := by simpa [List.isEmpty_iff] using hdne
  simp only [hd, Bool.false_eq_true, not_false_eq_true, if_true]
  rw [dupdate_nil_of_nodup d hnd]
  exact dcontains_foldl_buildStep_mono sig.params n d h

/-- C7, amended: a surplus documented name (absent from the signature)
never causes a failure and, as long as it is not the *only* entry of the
parameters map, has no effect at all on the compiled docstring: compiling
with the surplus entry equals compiling without it, errors included.
(There is no strict mode in the source, so no input makes a surplus key
fail.)  The counterexample shows the one exception the claim misses: when
every entry is surplus, the entries still make the parameters map truthy
and an empty `Parameters` heading block appears. -/
theorem claim7_surplus_key (req : DocRequest) (sig : PySig) (d : PyDict) (k : Str)
    (hnd : (d.map Prod.fst).Nodup)
    (hsig : ∀ q ∈ sig.params, q.name ≠ k)
    (hin : dcontains d k = true)
    (hene : eraseKey d k ≠ []) :
    doc_main { req with parameters := some d } sig =
      doc_main { req with parameters := some (eraseKey d k) } sig := by
  have hdne : d ≠ [] := dcontains_ne_nil d k hin
  have hpd : build_param_docs (some (eraseKey d k)) sig =
      eraseKey (build_param_docs (some d) sig) k :=
    build_param_docs_eraseKey sig d k hnd hsig hdne hene
  -- non-emptiness of both built dictionaries
  have hpd₁k : dcontains (build_param_docs (some d) sig) k = true :=
    dcontains_build_param_docs sig d k hnd hin
  obtain ⟨p₀, tl, heq⟩ : ∃ p₀ tl, eraseKey d k = p₀ :: tl := by
    cases he : eraseKey d k with
    | nil => exact absurd he hene
    | cons p₀ tl => exact ⟨p₀, tl, rfl⟩
  have hp₀mem : p₀ ∈ eraseKey d k := by rw [heq]; simp
  have hk0 : p₀.1 ≠ k := by
    have := hp₀mem
    unfold eraseKey at this
    simpa using (List.of_mem_filter this)
  have h2 : dcontains d p₀.1 = true := by
    rw [← dcontains_eraseKey d k p₀.1 hk0, heq, dcontains_cons]
    simp
  have h3 : dcontains (build_param_docs (some d) sig) p₀.1 = true :=
    dcontains_build_param_docs sig d p₀.1 hnd h2
  have h4 : dcontains (build_param_docs (some (eraseKey d k)) sig) p₀.1 = true := by
    rw [hpd, dcontains_eraseKey _ _ _ hk0]
    exact h3
  have hne₁ : (build_param_docs (some d) sig).isEmpty = false := by
    have := dcontains_ne_nil _ _ hpd₁k
    simpa [List.isEmpty_iff] using this
  have hne₂ : (build_param_docs (some (eraseKey d k)) sig).isEmpty = false := by
    have := dcontains_ne_nil _ _ h4
    simpa [List.isEmpty_iff] using this
  -- congruences for the two uses of the dictionary
  have hlook : ∀ q ∈ sig.params,
      dlookup (build_param_docs (some (eraseKey d k)) sig) q.name =
        dlookup (build_param_docs (some d) sig) q.name := by
    intro q hq
    rw [hpd]
    exact dlookup_eraseKey _ k q.name (hsig q hq)
  have hfp : format_parameters (build_param_docs (some (eraseKey d k)) sig) sig =
      format_parameters (build_param_docs (some d) sig) sig :=
    format_parameters_congr _ _ sig hlook
  have hfm : firstMissing
      (dupdate (dupdate [] (build_param_docs (some (eraseKey d k)) sig))
        (build_other_param_docs req.other_parameters)) sig =
      firstMissing
      (dupdate (dupdate [] (build_param_docs (some d) sig))
        (build_other_param_docs req.other_parameters)) sig := by
    refine firstMissing_congr _ _ sig (fun q hq => ?_)
    rw [dcontains_dupdate, dcontains_dupdate, dcontains_dupdate, dcontains_dupdate,
      hpd, dcontains_eraseKey _ k q.name (hsig q hq)]
  have hbody : ∀ sR sY sRc : Str,
      assembleBody { req with parameters := some (eraseKey d k) } sig
        (build_param_docs (some (eraseKey d k)) sig)
        (build_other_param_docs req.other_parameters) sR sY sRc =
      assembleBody { req with parameters := some d } sig
        (build_param_docs (some d) sig)
        (build_other_param_docs req.other_parameters) sR sY sRc := by
    intro sR sY sRc
    unfold assembleBody
    rw [hfp]
    simp only [hne₁, hne₂]
  have hdec : decorate { req with parameters := some (eraseKey d k) } sig =
      decorate { req with parameters := some d } sig := by
    unfold decorate
    simp only []
    rw [hfm]
    simp only [hbody]
  unfold doc_main
  rw [hdec]

/-- C7, counterexample: with an empty signature, documenting only the
surplus name `spam` succeeds (no failure) but *does* change the output
relative to omitting it: the surplus entry makes the parameters map truthy
and an empty `Parameters` heading appears, so "the surplus entry produces
no output line, and the rest of the output is unaffected" is false. -/
theorem claim7_surplus_key_counterexample :
    (doc_main c7Req emptySig).toOption ≠ (doc_main c7ReqErased emptySig).toOption ∧
    (match doc_main c7Req emptySig with
     | .ok s => containsSub (strL "Parameters") s
     | .error _ => false) = true ∧
    (match doc_main c7ReqErased emptySig with
     | .ok s => containsSub (strL "Parameters") s
     | .error _ => true) = false := by
  refine ⟨by decide, by decide, by decide⟩

/-- Witness for `claim7_surplus_key`: a surplus `spam` entry next to a
genuine `bar` entry changes nothing. -/
theorem claim7_surplus_key_witness :
    (∀ q ∈ ({ params := [{ name := strL "bar" }] } : PySig).params,
      q.name ≠ strL "spam") ∧
    doc_main { paramsOnlyReq (strL "A function.")
        (some [(strL "bar", strL "Very bar."), (strL "spam", strL "Surplus.")]) with
        parameters := some [(strL "bar", strL "Very bar."), (strL "spam", strL "Surplus.")] }
      { params := [{ name := strL "bar" }] } =
    doc_main { paramsOnlyReq (strL "A function.")
        (some [(strL "bar", strL "Very bar."), (strL "spam", strL "Surplus.")]) with
        parameters := some (eraseKey
          [(strL "bar", strL "Very bar."), (strL "spam", strL "Surplus.")] (strL "spam")) }
      { params := [{ name := strL "bar" }] } :=
  ⟨by decide,
   claim7_surplus_key
     (paramsOnlyReq (strL "A function.")
       (some [(strL "bar", strL "Very bar."), (strL "spam", strL "Surplus.")]))
     { params := [{ name := strL "bar" }] }
     [(strL "bar", strL "Very bar."), (strL "spam", strL "Surplus.")]
     (strL "spam") (by decide) (by decide) (by decide) (by decide)⟩

/-! ### Claim C2: parameter completeness -/

/-- With no `Annotated` hints in the signature, the hint-collection fold is
the identity. -/
theorem foldl_buildStep_nohint (ps : List PyParam)
    (h : ∀ q ∈ ps, ∀ t, q.ann = some t → get_annotated_doc (unpack_optional t) = none) :
    ∀ acc : PyDict, ps.foldl buildStep acc = acc := by
  induction ps with
  | nil => intro acc; rfl
  | cons p rest ih =>
    intro acc
    have hstep : buildStep acc p = acc := by
      unfold buildStep
      cases hann : p.ann with
      | none => rfl
      | some t =>
        have hga := h p (by simp) t hann
        simp [hga]
    simp only [List.foldl_cons, hstep]
    exact ih (fun q hq t ht => h q (by simp [hq]) t ht) acc

/-- With a duplicate-free parameters dictionary and no `Annotated` hints,
the built dictionary is the caller's dictionary itself. -/
theorem build_param_docs_nohint (d : PyDict) (sig : PySig)
    (hnd : (d.map Prod.fst).Nodup)
    (hno : ∀ q ∈ sig.params, ∀ t, q.ann = some t →
      get_annotated_doc (unpack_optional t) = none) :
    build_param_docs (some d) sig = d := by
  unfold build_param_docs
  rw [foldl_buildStep_nohint sig.params hno]
  cases d with
  | nil => rfl
  | cons p rest =>
    simp only [List.isEmpty_cons, Bool.false_eq_true, not_false_eq_true, if_true]
    exact dupdate_nil_of_nodup _ hnd

/-- When exactly one non-receiver parameter is undocumented, the missing
check reports that parameter's name. -/
theorem firstMissing_unique (all : PyDict) (ps : List PyParam) (ra : Option PyType)
    (p : PyParam) (hmem : p ∈ ps) (hself : p.name ≠ strL "self")
    (hmiss : dcontains all p.name = false)
    (hothers : ∀ q ∈ ps, q.name ≠ strL "self" → q.name ≠ p.name →
      dcontains all q.name = true) :
    firstMissing all { params := ps, retAnn := ra } = some p.name := by
  induction ps with
  | nil => cases hmem
  | cons q rest ih =>
    unfold firstMissing at ih ⊢
    simp only [List.findSome?_cons]
    by_cases hqself : q.name = strL "self"
    · simp only [hqself]
      simp only [ne_eq, not_true_eq_false, false_and, if_false]
      have hq : p ∈ rest := by
        rcases List.mem_cons.mp hmem with rfl | hr
        · exact absurd hqself hself
        · exact hr
      exact ih hq (fun q' hq' => hothers q' (by simp [hq']))
    · by_cases hqp : q.name = p.name
      · rw [hqp]
        simp [hself, hmiss]
      · have hdoc : dcontains all q.name = true := hothers q (by simp) hqself hqp
        simp only [ne_eq, hqself, not_false_eq_true, true_and, hdoc,
          Bool.true_eq_false, not_true_eq_false, if_false]
        have hq : p ∈ rest := by
          rcases List.mem_cons.mp hmem with rfl | hr
          · exact absurd rfl hqp
          · exact hr
        exact ih hq (fun q' hq' => hothers q' (by simp [hq']))

/-- When every non-receiver parameter is documented, the missing check
passes. -/
theorem firstMissing_none (all : PyDict) (ps : List PyParam) (ra : Option PyType)
    (h : ∀ q ∈ ps, q.name ≠ strL "self" → dcontains all q.name = true) :
    firstMissing all { params := ps, retAnn := ra } = none := by
  induction ps with
  | nil => rfl
  | cons q rest ih =>
    unfold firstMissing at ih ⊢
    simp only [List.findSome?_cons]
    by_cases hqself : q.name = strL "self"
    · simp only [hqself, ne_eq, not_true_eq_false, false_and, if_false]
      exact ih (fun q' hq' => h q' (by simp [hq']))
    · rw [h q (by simp) hqself]
      simp only [ne_eq, hqself, not_false_eq_true, true_and, Bool.true_eq_false,
        not_true_eq_false, if_false]
      exact ih (fun q' hq' => h q' (by simp [hq']))

/-- String-keyed slots with entirely present types always render. -/
theorem renderSlots_some_ok (m : NamedPayload) :
    ∀ types : List (Option PyType), (∀ ty ∈ types, ty ≠ none) →
      ∃ s, renderSlots m types = .ok s := by
  induction m with
  | nil =>
    intro types _
    refine ⟨[], ?_⟩
    cases types <;> rfl
  | cons e rest ih =>
    intro types htypes
    match types with
    | [] => exact ⟨[], rfl⟩
    | ty :: tys =>
      obtain ⟨r, hr⟩ := ih tys (fun ty' hty' => htypes ty' (by simp [hty']))
      match hty : ty with
      | none => exact absurd rfl (htypes none (by simp))
      | some t =>
        obtain ⟨nm, dc⟩ := e
        match nm with
        | .s v =>
          exact ⟨(pyStrip v ++ strL " : " ++ format_type t ++ ['\n'] ++
            slotDocPart dc) ++ r, by unfold renderSlots; rw [hr]; rfl⟩
        | .i j =>
          exact ⟨(format_type t ++ ['\n'] ++ slotDocPart dc) ++ r, by
            unfold renderSlots; rw [hr]; rfl⟩

/-- A non-tuple auto-returns payload always produces a well-formed
Returns section. -/
theorem auto_single_ok (t : PyType) :
    ∃ s, sectionReturnsE (some (auto_returns_single none t)) (some t) = .ok s := by
  unfold auto_returns_single
  cases hado : annotatedDocOrFlag t with
  | s d =>
    by_cases hd : d.isEmpty
    · exact ⟨[], by simp [sectionReturnsE, truthyPayload, hd]⟩
    · exact ⟨sectionBlock (strL "Returns") (format_returns_unnamed d (some t)),
        by simp [sectionReturnsE, truthyPayload, hd, format_returns]⟩
  | flagTrue =>
    exact ⟨sectionBlock (strL "Returns") (format_type t ++ ['\n']),
      by simp [sectionReturnsE, truthyPayload, format_returns, format_returns_auto]⟩

/-- The auto-returns payload computed for a request without `returns` and
`yields` always produces a well-formed Returns section. -/
theorem sectionReturnsE_auto_ok (ra : Option PyType) :
    ∃ s, sectionReturnsE (computeReturnsDoc none none ra) ra = .ok s := by
  cases ra with
  | none => exact ⟨[], rfl⟩
  | some t =>
    by_cases hn : isNoneTy t
    · refine ⟨[], ?_⟩
      simp [computeReturnsDoc, hn, sectionReturnsE]
    · have hcrd : computeReturnsDoc none none (some t) = some (auto_returns none t) := by
        simp [computeReturnsDoc, hn]
      rw [hcrd]
      match t with
      | .noneType => exact absurd rfl hn
      | .fixedTuple args =>
        match args with
        | [] => exact ⟨[], rfl⟩
        | a :: as =>
          obtain ⟨s', hs'⟩ := renderSlots_some_ok
            (((List.range (a :: as).length).zip (a :: as)).map
              (fun p => (RKey.i p.1, annotatedDocOrFlag p.2)))
            ((a :: as).map some) (by simp)
          refine ⟨sectionBlock (strL "Returns") (s' ++ ['\n']), ?_⟩
          simp only [auto_returns, auto_returns_multi, sectionReturnsE]
          have htrue : truthyPayload (.named
              (((List.range (a :: as).length).zip (a :: as)).map
                (fun p => (RKey.i p.1, annotatedDocOrFlag p.2)))) = true := by
            simp [truthyPayload]
          rw [htrue]
          simp only [format_returns, format_returns_named]
          have hL : ((((List.range (a :: as).length).zip (a :: as)).map
              (fun p => (RKey.i p.1, annotatedDocOrFlag p.2)))).length =
              (a :: as).length := by
            simp
          simp only [List.length_cons, List.map_cons] at hs'
          simp [returnTypesOf, hL, hs', Nat.lt_irrefl]
      | .cls n => simpa [auto_returns] using auto_single_ok (PyType.cls n)
      | .arrayLike => simpa [auto_returns] using auto_single_ok (PyType.arrayLike)
      | .dtypeLike => simpa [auto_returns] using auto_single_ok (PyType.dtypeLike)
      | .annotated inner doc => simpa [auto_returns] using auto_single_ok (PyType.annotated inner doc)
      | .unionOf args => simpa [auto_returns] using auto_single_ok (PyType.unionOf args)
      | .literalOf vals => simpa [auto_returns] using auto_single_ok (PyType.literalOf vals)
      | .seqOf o e => simpa [auto_returns] using auto_single_ok (PyType.seqOf o e)
      | .variadicTuple e => simpa [auto_returns] using auto_single_ok (PyType.variadicTuple e)
      | .generatorOf y s r => simpa [auto_returns] using auto_single_ok (PyType.generatorOf y s r)
      | .iteratorOf e => simpa [auto_returns] using auto_single_ok (PyType.iteratorOf e)
      | .iterableOf e => simpa [auto_returns] using auto_single_ok (PyType.iterableOf e)

/-- A request carrying only summary and parameters fails exactly as the
missing-parameter check dictates. -/
theorem doc_main_paramsOnly_error (su : Str) (d : Option PyDict) (sig : PySig)
    (nm : Str)
    (h : firstMissing (dupdate (dupdate [] (build_param_docs d sig))
      (build_other_param_docs none)) sig = some nm) :
    doc_main (paramsOnlyReq su d) sig = .error (.paramNotDocumented nm) := by
  simp [doc_main, paramsOnlyReq, truthyRetInput, truthySimple, decorate, h]

/-- A request carrying only summary and parameters succeeds once the
missing-parameter check passes. -/
theorem doc_main_paramsOnly_ok (su : Str) (d : Option PyDict) (sig : PySig)
    (h : firstMissing (dupdate (dupdate [] (build_param_docs d sig))
      (build_other_param_docs none)) sig = none) :
    ∃ s, doc_main (paramsOnlyReq su d) sig = .ok s := by
  obtain ⟨r, hr⟩ := sectionReturnsE_auto_ok sig.retAnn
  refine ⟨'\n' :: cleandoc (assembleBody (paramsOnlyReq su d) sig
    (build_param_docs d sig) (build_other_param_docs none) r [] []) ++ ['\n'], ?_⟩
  simp [doc_main, paramsOnlyReq, truthyRetInput, truthySimple, decorate, h, hr,
    sectionYieldsE, sectionReceivesE]

/-- The full documentation dictionary of a summary-and-parameters request
is the caller's dictionary itself (no hints, no duplicates). -/
theorem allDocs_paramsOnly (d : PyDict) (sig : PySig)
    (hnd : (d.map Prod.fst).Nodup)
    (hno : ∀ q ∈ sig.params, ∀ t, q.ann = some t →
      get_annotated_doc (unpack_optional t) = none) :
    dupdate (dupdate [] (build_param_docs (some d) sig))
      (build_other_param_docs none) = d := by
  rw [build_param_docs_nohint d sig hnd hno]
  show dupdate (dupdate [] d) [] = d
  show dupdate [] d = d
  exact dupdate_nil_of_nodup d hnd

/-- C2: for a signature whose parameters carry no inline `Annotated`
hints, omitting the prose of exactly one non-receiver parameter fails with
the missing-parameter error naming it; documenting every non-receiver
parameter succeeds; the Parameters body renders the signature list
left-to-right (so output order is signature declaration order); and the
rendered output depends on the documentation map only through name lookup,
never through the map's own order. -/
theorem claim2_parameter_completeness :
    (∀ (su : Str) (d : PyDict) (sig : PySig) (p : PyParam),
      (d.map Prod.fst).Nodup →
      (∀ q ∈ sig.params, ∀ t, q.ann = some t →
        get_annotated_doc (unpack_optional t) = none) →
      p ∈ sig.params → p.name ≠ strL "self" →
      dcontains d p.name = false →
      (∀ q ∈ sig.params, q.name ≠ strL "self" → q.name ≠ p.name →
        dcontains d q.name = true) →
      doc_main (paramsOnlyReq su (some d)) sig =
        .error (.paramNotDocumented p.name)) ∧
    (∀ (su : Str) (d : PyDict) (sig : PySig),
      (d.map Prod.fst).Nodup →
      (∀ q ∈ sig.params, ∀ t, q.ann = some t →
        get_annotated_doc (unpack_optional t) = none) →
      (∀ q ∈ sig.params, q.name ≠ strL "self" → dcontains d q.name = true) →
      ∃ s, doc_main (paramsOnlyReq su (some d)) sig = .ok s) ∧
    (∀ (d : PyDict) (ps₁ ps₂ : List PyParam) (ra : Option PyType),
      format_parameters d { params := ps₁ ++ ps₂, retAnn := ra } =
        format_parameters d { params := ps₁, retAnn := ra } ++
          format_parameters d { params := ps₂, retAnn := ra }) ∧
    (∀ (d₁ d₂ : PyDict) (sig : PySig),
      (∀ q ∈ sig.params, dlookup d₁ q.name = dlookup d₂ q.name) →
      format_parameters d₁ sig = format_parameters d₂ sig) := by
  refine ⟨?_, ?_, ?_, ?_⟩
  · intro su d sig p hnd hno hmem hself hmiss hothers
    apply doc_main_paramsOnly_error
    rw [allDocs_paramsOnly d sig hnd hno]
    exact firstMissing_unique d sig.params sig.retAnn p hmem hself hmiss hothers
  · intro su d sig hnd hno hall
    apply doc_main_paramsOnly_ok
    rw [allDocs_paramsOnly d sig hnd hno]
    exact firstMissing_none d sig.params sig.retAnn hall
  · intro d ps₁ ps₂ ra
    unfold format_parameters
    simp [List.map_append, List.flatten_append]
  · exact format_parameters_congr

/-- Witness for `claim2_parameter_completeness`: `bar` documented, `baz`
missing, reported as `Parameter baz not documented.`; documenting both
succeeds. -/
theorem claim2_parameter_completeness_witness :
    doc_main (paramsOnlyReq (strL "A function.")
        (some [(strL "bar", strL "Very bar.")]))
      { params := [{ name := strL "bar" }, { name := strL "baz" }], retAnn := none } =
      .error (.paramNotDocumented (strL "baz")) ∧
    ∃ s, doc_main (paramsOnlyReq (strL "A function.")
        (some [(strL "bar", strL "Very bar."), (strL "baz", strL "So baz.")]))
      { params := [{ name := strL "bar" }, { name := strL "baz" }], retAnn := none } =
      .ok s :=
  ⟨claim2_parameter_completeness.1 (strL "A function.")
      [(strL "bar", strL "Very bar.")]
      { params := [{ name := strL "bar" }, { name := strL "baz" }], retAnn := none }
      { name := strL "baz" } (by decide)
      (by intro q hq t ht; fin_cases hq <;> simp_all)
      (by simp) (by decide) (by decide)
      (by intro q hq h1 h2; fin_cases hq <;> simp_all [dcontains]),
   claim2_parameter_completeness.2.1 (strL "A function.")
      [(strL "bar", strL "Very bar."), (strL "baz", strL "So baz.")]
      { params := [{ name := strL "bar" }, { name := strL "baz" }], retAnn := none }
      (by decide)
      (by intro q hq t ht; fin_cases hq <;> simp_all)
      (by intro q hq h1; fin_cases hq <;> decide)⟩

/-! ### Claim C5: paragraph formatting -/

/-- `sumLen` distributes over cons. -/
theorem sumLen_cons (a : Str) (l : List Str) :
    sumLen (a :: l) = a.length + sumLen l := by
  simp [sumLen]

/-- `sumLen` distributes over append. -/
theorem sumLen_append (l₁ l₂ : List Str) :
    sumLen (l₁ ++ l₂) = sumLen l₁ + sumLen l₂ := by
  simp [sumLen]

/-- Dropping the last chunk cannot increase the total length. -/
theorem sumLen_dropLast_le (l : List Str) : sumLen l.dropLast ≤ sumLen l := by
  induction l with
  | nil => exact Nat.le_refl _
  | cons c rest ih =>
    cases rest with
    | nil => simp [sumLen]
    | cons c' rest' =>
      rw [List.dropLast_cons₂, sumLen_cons, sumLen_cons]
      exact Nat.add_le_add_left ih _

/-- Dropping a trailing whitespace chunk cannot increase the total
length. -/
theorem sumLen_dropTrailingWs_le (l : List Str) :
    sumLen (dropTrailingWs l) ≤ sumLen l := by
  unfold dropTrailingWs
  cases l.getLast? with
  | none => exact Nat.le_refl _
  | some last =>
    by_cases hws : isWsChunk last
    · simp only [hws, if_true]
      exact sumLen_dropLast_le l
    · simp only [hws, Bool.false_eq_true, if_false]
      exact Nat.le_refl _

/-- The greedy fitting loop respects the width budget (or takes nothing). -/
theorem fitChunks_take_le (w : Nat) :
    ∀ (l : List Str) (n : Nat),
      (fitChunks w n l).1 = [] ∨ n + sumLen (fitChunks w n l).1 ≤ w := by
  intro l
  induction l with
  | nil => intro n; left; rfl
  | cons c rest ih =>
    intro n
    unfold fitChunks
    by_cases hfit : n + c.length ≤ w
    · right
      simp only [hfit, if_true]
      rcases ih (n + c.length) with h | h
      · rw [h]
        simpa [sumLen] using hfit
      · rw [sumLen_cons]
        omega
    · left
      simp [hfit]

/-- One wrap step produces a line within the width budget. -/
theorem wrapStep_line_le (w : Nat) (hw : 1 ≤ w) (chunks : List Str) :
    sumLen (wrapStep w chunks).1 ≤ w := by
  unfold wrapStep
  have hfit : sumLen (fitChunks w 0 chunks).1 ≤ w := by
    rcases fitChunks_take_le w chunks 0 with h | h
    · rw [h]
      simp [sumLen]
    · simpa using h
  refine Nat.le_trans (sumLen_dropTrailingWs_le _) ?_
  unfold handleLongWord
  rcases hr : (fitChunks w 0 chunks).2 with _ | ⟨c, rs⟩
  · exact hfit
  · by_cases hlong : w < c.length
    · simp only [hlong, if_true]
      rw [sumLen_append]
      have hsl : (if w < 1 then 1 else w - sumLen (fitChunks w 0 chunks).1) =
          w - sumLen (fitChunks w 0 chunks).1 := by
        have : ¬ w < 1 := by omega
        simp [this]
      rw [hsl]
      have htake : sumLen [c.take (w - sumLen (fitChunks w 0 chunks).1)] ≤
          w - sumLen (fitChunks w 0 chunks).1 := by
        simp [sumLen, List.length_take]
      omega
    · simp only [hlong, if_false]
      exact hfit

/-- Every line produced by the wrap loop fits within the width. -/
theorem wrapChunksF_line_le (w : Nat) (hw : 1 ≤ w) :
    ∀ (fuel : Nat) (first : Bool) (chunks : List Str) (l : Str),
      l ∈ wrapChunksF w fuel first chunks → l.length ≤ w := by
  intro fuel
  induction fuel with
  | zero =>
    intro first chunks l hl
    simp [wrapChunksF] at hl
  | succ fuel ih =>
    intro first chunks l hl
    match chunks with
    | [] => simp [wrapChunksF] at hl
    | c0 :: cs0 =>
      simp only [wrapChunksF] at hl
      by_cases hemp : (wrapStep w (if ¬ first ∧ isWsChunk c0 then cs0
          else c0 :: cs0)).1.isEmpty
      · rw [if_pos hemp] at hl
        exact ih first _ l hl
      · rw [if_neg hemp] at hl
        rcases List.mem_cons.mp hl with rfl | hmem
        · rw [List.length_flatten]
          exact Nat.le_trans (Nat.le_of_eq rfl) (by
            have := wrapStep_line_le w hw (if ¬ first ∧ isWsChunk c0 then cs0
              else c0 :: cs0)
            simpa [sumLen] using this)
        · exact ih false _ l hmem

/-- The terminal character of a non-trivial `punctuate` output is terminal
punctuation. -/
theorem punctuate_last_mem (p : Str) (c : Char)
    (h : (punctuate p).getLast? = some c) : c ∈ punctChars := by
  unfold punctuate at h
  by_cases hemp : p.isEmpty
  · rw [if_pos hemp] at h
    rw [List.isEmpty_iff.mp hemp] at h
    cases h
  · rw [if_neg hemp] at h
    cases hs : pyStrip p with
    | nil => rw [hs] at h; cases h
    | cons c₀ rest =>
      rw [hs] at h
      simp only [] at h
      by_cases hlast : (pyUpperChar c₀ :: rest).getLast (by simp) ∈ punctChars
      · rw [if_pos hlast] at h
        rw [List.getLast?_eq_getLast _ (by simp)] at h
        cases h
        exact hlast
      · rw [if_neg hlast] at h
        rw [List.getLast?_concat] at h
        cases h
        decide

/-- C5, counterexample: the source wraps at `textwrap.fill`'s default of 70
columns, not the claimed 79: a punctuated 77-column paragraph breaks into
two lines although a 79-column wrap would keep one. -/
theorem claim5_width_counterexample :
    format_paragraphs c5Input ≠ format_paragraphs_specW 79 c5Input ∧
    format_paragraphs c5Input = format_paragraphs_specW 70 c5Input := by
  constructor
  · decide
  · decide

/-- C5, amended: the paragraph formatter is the specification's formatter
at the fixed, non-configurable width of **70** columns: marker paragraphs
are copied verbatim; other paragraphs are stripped, capitalized,
punctuated (their last character always ends in `. ! ? :`) and wrapped so
that every produced line has at most 70 characters. -/
theorem claim5_paragraph_formatting :
    (∀ s, format_paragraphs s = format_paragraphs_specW 70 s) ∧
    (∀ p, isVerbatimPara p = true → paraBranch p = p ++ strL "\n\n") ∧
    (∀ p l, l ∈ pyWrap 70 (punctuate p) → l.length ≤ 70) ∧
    (∀ p c, (punctuate p).getLast? = some c → c ∈ punctChars) := by
  refine ⟨?_, ?_, ?_, ?_⟩
  · intro s
    unfold format_paragraphs format_paragraphs_specW
    have h : paraBranch = paraBranchW 70 := funext (fun p => rfl)
    rw [h]
  · intro p h
    simp [paraBranch, h]
  · intro p l hl
    exact wrapChunksF_line_le 70 (by omega) _ true _ l hl
  · exact punctuate_last_mem

/-- Witness for `claim5_paragraph_formatting`: a marker paragraph is
copied verbatim, and a long paragraph's wrapped lines stay within 70
columns. -/
theorem claim5_paragraph_formatting_witness :
    isVerbatimPara (strL "  quoted block") = true ∧
    paraBranch (strL "  quoted block") = strL "  quoted block" ++ strL "\n\n" :=
  ⟨by decide, claim5_paragraph_formatting.2.1 (strL "  quoted block") (by decide)⟩

/-- Unfolding lemma for `splitP` on a cons cell that does not start a
blank-line separator. -/
theorem splitP_cons_case (c : Char) (rest : Str)
    (h : ∀ r, ¬ (c :: rest = '\n' :: '\n' :: r)) :
    splitP (c :: rest) =
      match splitP rest with
      | [] => [[c]]
      | seg :: segs => (c :: seg) :: segs := by
  rw [splitP.eq_def]
  split
  · rename_i heq
    cases heq
  · rename_i r heq
    exact absurd heq (h r)
  · rename_i c2 r2 hno heq
    injection heq with hh ht
    subst hh
    subst ht
    rfl

/-- `splitP` never returns the empty list of segments. -/
theorem splitP_ne_nil (s : Str) : splitP s ≠ [] := by
  induction s using splitP.induct with
  | case1 => simp [splitP]
  | case2 rest ih => simp [splitP]
  | case3 c rest h hs ih =>
    rw [splitP_cons_case c rest (fun r heq => by
      injection heq with h1 h2
      exact h r h1 h2), hs]
    simp
  | case4 c rest h seg segs hs ih =>
    rw [splitP_cons_case c rest (fun r heq => by
      injection heq with h1 h2
      exact h r h1 h2), hs]
    simp

/-- `joinP` of a single segment. -/
theorem joinP_singleton (o : Str) : joinP [o] = o := by
  simp [joinP]

/-- `joinP` of a cons with a nonempty tail. -/
theorem joinP_cons (o : Str) (rest : List Str) (h : rest ≠ []) :
    joinP (o :: rest) = o ++ '\n' :: '\n' :: joinP rest := by
  cases rest with
  | nil => exact absurd rfl h
  | cons b t => simp [joinP, List.intersperse_cons₂, strL]

/-- Pushing a head character through `joinP` of a cons. -/
theorem joinP_cons_head (c : Char) (seg : Str) (segs : List Str) :
    joinP ((c :: seg) :: segs) = c :: joinP (seg :: segs) := by
  cases segs with
  | nil => rfl
  | cons b t => simp [joinP, List.intersperse_cons₂, strL]

/-- Joining the blank-line split reconstructs the original string. -/
theorem joinP_splitP (s : Str) : joinP (splitP s) = s := by
  induction s using splitP.induct with
  | case1 => rfl
  | case2 rest ih =>
    have hs : splitP ('\n' :: '\n' :: rest) = [] :: splitP rest := rfl
    rw [hs, joinP_cons _ _ (splitP_ne_nil rest), ih]
    rfl
  | case3 c rest h hs ih =>
    exact absurd hs (splitP_ne_nil rest)
  | case4 c rest h seg segs hs ih =>
    rw [splitP_cons_case c rest (fun r heq => by
      injection heq with h1 h2
      exact h r h1 h2), hs]
    rw [hs] at ih
    simp only []
    rw [joinP_cons_head, ih]

/-- One step of `noDoubleNl` down a cons cell. -/
theorem noDoubleNl_cons (c : Char) (rest : Str)
    (h : noDoubleNl (c :: rest) = true) : noDoubleNl rest = true := by
  rw [noDoubleNl.eq_def] at h
  split at h
  · exact absurd h (by simp)
  · rename_i c2 r2 heq
    injection heq with hh ht
    subst ht
    exact h
  · rename_i heq
    cases heq

/-- A string without blank-line separators is a single segment. -/
theorem splitP_single (s : Str) (h : noDoubleNl s = true) : splitP s = [s] := by
  induction s using splitP.induct with
  | case1 => rfl
  | case2 rest ih => simp [noDoubleNl] at h
  | case3 c rest hno hs ih =>
    exact absurd hs (splitP_ne_nil rest)
  | case4 c rest hno seg segs hs ih =>
    rw [splitP_cons_case c rest (fun r heq => by
      injection heq with h1 h2
      exact hno r h1 h2)]
    rw [ih (noDoubleNl_cons _ _ h)]

/-- `splitP` cuts exactly at an inserted blank-line separator when the piece
before it has no separator of its own and does not end in a newline. -/
theorem splitP_append_nn (seg rest : Str) (h1 : noDoubleNl seg = true)
    (h2 : seg.getLast? ≠ some '\n') :
    splitP (seg ++ '\n' :: '\n' :: rest) = seg :: splitP rest := by
  induction seg with
  | nil => rfl
  | cons c seg2 ih =>
    rw [List.cons_append, splitP_cons_case _ _ (fun r heq => by
      injection heq with hh ht
      subst hh
      cases seg2 with
      | nil =>
        simp at h2
      | cons d t =>
        injection ht with hd ht2
        subst hd
        simp [noDoubleNl] at h1)]
    have h2' : seg2.getLast? ≠ some '\n' := by
      cases seg2 with
      | nil => simp
      | cons d t =>
        rw [List.getLast?_cons_cons] at h2
        exact h2
    rw [ih (noDoubleNl_cons _ _ h1) h2']

/-- `splitP` inverts `joinP` on lists of separator-free segments that do not
end in newlines. -/
theorem splitP_joinP (outs : List Str) (hne : outs ≠ [])
    (h : ∀ o ∈ outs, noDoubleNl o = true ∧ o.getLast? ≠ some '\n') :
    splitP (joinP outs) = outs := by
  induction outs with
  | nil => exact absurd rfl hne
  | cons o rest ih =>
    cases rest with
    | nil =>
      rw [joinP_singleton]
      exact splitP_single o (h o (List.mem_singleton.mpr rfl)).1
    | cons b t =>
      rw [joinP_cons _ _ (by simp)]
      rw [splitP_append_nn _ _ (h o (List.mem_cons_self o _)).1
        (h o (List.mem_cons_self o _)).2]
      rw [ih (by simp) (fun o2 ho2 => h o2 (List.mem_cons_of_mem _ ho2))]

/-- Flattening paragraph outputs each followed by a blank line equals the
blank-line join followed by one final blank line. -/
theorem flatten_map_nn (outs : List Str) (h : outs ≠ []) :
    (outs.map (· ++ strL "\n\n")).flatten = joinP outs ++ strL "\n\n" := by
  induction outs with
  | nil => exact absurd rfl h
  | cons o rest ih =>
    cases rest with
    | nil => simp [joinP]
    | cons b t =>
      rw [List.map_cons, List.flatten_cons, ih (by simp),
        joinP_cons o (b :: t) (by simp)]
      simp [strL]

/-- The chunks of a string concatenate back to the string. -/
theorem chunksOf_flatten (s : Str) : (chunksOf s).flatten = s := by
  induction s with
  | nil => rfl
  | cons c rest ih =>
    have hcons : chunksOf (c :: rest) =
        match chunksOf rest with
        | [] => [[c]]
        | (d :: ds) :: gs =>
          if (c = ' ') = (d = ' ') then (c :: d :: ds) :: gs
          else [c] :: (d :: ds) :: gs
        | [] :: gs => [c] :: gs := rfl
    rw [hcons]
    cases hc : chunksOf rest with
    | nil =>
      rw [hc] at ih
      simp at ih
      simp [ih]
    | cons g gs =>
      rw [hc] at ih
      cases g with
      | nil =>
        simp only []
        simp at ih ⊢
        exact ih
      | cons d ds =>
        by_cases hcd : (c = ' ') = (d = ' ')
        · simp only [hcd, if_true]
          simp at ih ⊢
          exact ih
        · simp only [hcd, if_false]
          simp at ih ⊢
          exact ih

/-- A nonempty string has at least one chunk. -/
theorem chunksOf_ne_nil (s : Str) (h : s ≠ []) : chunksOf s ≠ [] := by
  intro hc
  apply h
  have := chunksOf_flatten s
  rw [hc] at this
  simpa using this.symm

/-- The last chunk is nonempty and ends in the string\x27s last character. -/
theorem chunksOf_last (s : Str) :
    ∀ g, (chunksOf s).getLast? = some g → g ≠ [] ∧ g.getLast? = s.getLast? := by
  induction s with
  | nil => intro g hg; simp [chunksOf] at hg
  | cons c rest ih =>
    intro g hg
    have hrest : rest ≠ [] → (c :: rest).getLast? = rest.getLast? := by
      intro hr
      cases rest with
      | nil => exact absurd rfl hr
      | cons d t => exact List.getLast?_cons_cons
    have hcons : chunksOf (c :: rest) =
        match chunksOf rest with
        | [] => [[c]]
        | (d :: ds) :: gs =>
          if (c = ' ') = (d = ' ') then (c :: d :: ds) :: gs
          else [c] :: (d :: ds) :: gs
        | [] :: gs => [c] :: gs := rfl
    rw [hcons] at hg
    cases hc : chunksOf rest with
    | nil =>
      have hrnil : rest = [] := by
        have := chunksOf_flatten rest
        rw [hc] at this
        simpa using this.symm
      rw [hc] at hg
      simp at hg
      subst hg
      subst hrnil
      exact ⟨by simp, by simp⟩
    | cons g0 gs =>
      have hrne : rest ≠ [] := by
        intro hr
        subst hr
        simp [chunksOf] at hc
      rw [hc] at hg
      cases g0 with
      | nil =>
        simp only [] at hg
        cases gs with
        | nil =>
          simp at hg
          have hbad := ih [] (by rw [hc]; rfl)
          simp at hbad
        | cons g1 gs1 =>
          rw [List.getLast?_cons_cons] at hg
          have hlast := ih g (by rw [hc, List.getLast?_cons_cons]; exact hg)
          exact ⟨hlast.1, hlast.2.trans (hrest hrne).symm⟩
      | cons d ds =>
        by_cases hcd : (c = ' ') = (d = ' ')
        · simp only [hcd, if_true] at hg
          cases gs with
          | nil =>
            simp at hg
            have hlast := ih (d :: ds) (by rw [hc]; rfl)
            refine ⟨by simp [hg.symm], ?_⟩
            rw [hg.symm, List.getLast?_cons_cons, hlast.2, hrest hrne]
          | cons g1 gs1 =>
            rw [List.getLast?_cons_cons] at hg
            have hlast := ih g (by rw [hc, List.getLast?_cons_cons]; exact hg)
            exact ⟨hlast.1, hlast.2.trans (hrest hrne).symm⟩
        · simp only [hcd, if_false] at hg
          rw [List.getLast?_cons_cons] at hg
          have hlast := ih g (by rw [hc]; exact hg)
          exact ⟨hlast.1, hlast.2.trans (hrest hrne).symm⟩

/-- The greedy fit takes every chunk when everything fits the width. -/
theorem fitChunks_all (w : Nat) :
    ∀ (l : List Str) (n : Nat), n + sumLen l ≤ w →
      fitChunks w n l = (l, []) := by
  intro l
  induction l with
  | nil => intro n h; rfl
  | cons c rest ih =>
    intro n h
    rw [sumLen_cons] at h
    unfold fitChunks
    have hfit : n + c.length ≤ w := by omega
    rw [if_pos hfit, ih (n + c.length) (by omega)]

/-- Tab expansion is the identity on strings without special whitespace. -/
theorem expandTabs_noop (s : Str) (h : ∀ c ∈ s, notSpecialWs c = true) :
    ∀ col, expandTabs col s = s := by
  induction s with
  | nil => intro col; rfl
  | cons c rest ih =>
    intro col
    have hc : notSpecialWs c = true := h c (List.mem_cons_self _ _)
    have hrest : ∀ c ∈ rest, notSpecialWs c = true :=
      fun d hd => h d (List.mem_cons_of_mem _ hd)
    have hct : c ≠ '\t' := by
      intro hh; subst hh; simp [notSpecialWs] at hc
    have hcn : c ≠ '\n' := by
      intro hh; subst hh; simp [notSpecialWs] at hc
    have hcr : c ≠ '\r' := by
      intro hh; subst hh; simp [notSpecialWs] at hc
    rw [expandTabs.eq_def]
    split
    · rename_i heq; cases heq
    · rename_i col2 rest2 heq
      injection heq with hh ht
      exact absurd hh hct
    · rename_i col2 rest2 heq
      injection heq with hh ht
      exact absurd hh hcn
    · rename_i col2 rest2 heq
      injection heq with hh ht
      exact absurd hh hcr
    · rename_i col2 c2 rest2 hno heq
      injection heq with hh ht
      subst hh
      subst ht
      rw [ih hrest]

/-- Whitespace munging is the identity on strings without special
whitespace. -/
theorem munge_noop (s : Str) (h : ∀ c ∈ s, notSpecialWs c = true) :
    munge s = s := by
  unfold munge
  rw [expandTabs_noop s h 0]
  have hmap : ∀ c ∈ s, (if c = '\t' || c = '\n' || c = '\x0b' || c = '\x0c' || c = '\r'
      then ' ' else c) = c := by
    intro c hc
    have hcc := h c hc
    unfold notSpecialWs at hcc
    rw [if_neg (of_decide_eq_true hcc)]
  rw [List.map_congr_left hmap]
  simp

/-- The wrap loop is the identity (one full line) on a nonempty chunk list
that fits the width and does not end in whitespace. -/
theorem fill_fixed (s : Str) (hne : s ≠ [])
    (hws : ∀ c ∈ s, notSpecialWs c = true)
    (hlen : s.length ≤ 70)
    (hlast : ∀ p, s.getLast? = some p → p ≠ ' ') :
    fill 70 s = s := by
  unfold fill pyWrap wrapChunks
  rw [munge_noop s hws]
  have hsum : sumLen (chunksOf s) = s.length := by
    have := chunksOf_flatten s
    unfold sumLen
    rw [← List.length_flatten, this]
  have hchne : chunksOf s ≠ [] := chunksOf_ne_nil s hne
  cases hch : chunksOf s with
  | nil => exact absurd hch hchne
  | cons c0 cs0 =>
    have hfuel : sumLen (c0 :: cs0) + (c0 :: cs0).length + 1 =
        (sumLen (c0 :: cs0) + (c0 :: cs0).length) + 1 := rfl
    rw [hfuel, wrapChunksF]
    simp only [not_true_eq_false, false_and, if_false]
    have hstep : wrapStep 70 (c0 :: cs0) = (c0 :: cs0, []) := by
      unfold wrapStep
      rw [fitChunks_all 70 (c0 :: cs0) 0 (by rw [hch] at hsum; omega)]
      simp only [handleLongWord]
      unfold dropTrailingWs
      cases hgl : (c0 :: cs0).getLast? with
      | none => simp at hgl
      | some g =>
        have hglast := chunksOf_last s g (by rw [hch]; exact hgl)
        have hwsf : isWsChunk g = false := by
          cases hgg : g.getLast? with
          | none =>
            cases g with
            | nil => exact absurd rfl hglast.1
            | cons x xs => simp at hgg
          | some p =>
            have hp : s.getLast? = some p := by rw [← hglast.2, hgg]
            have hpne := hlast p hp
            have hpm : p ∈ g := List.mem_of_mem_getLast? hgg
            cases hb : isWsChunk g with
            | false => rfl
            | true =>
              exfalso
              simp only [isWsChunk, List.all_eq_true] at hb
              exact hpne (by simpa using hb p hpm)
        simp [hwsf]
    rw [hstep]
    simp only [List.isEmpty_cons, if_false]
    have hrest : ∀ fuel, wrapChunksF 70 fuel false [] = [] := by
      intro fuel
      cases fuel with
      | zero => rfl
      | succ n => rfl
    rw [hrest]
    have : (c0 :: cs0).flatten = s := by rw [← hch]; exact chunksOf_flatten s
    rw [this]
    simp

/-- ASCII uppercasing either fixes its argument or lands in `A`–`Z`. -/
theorem pyUpperChar_cases (c : Char) :
    pyUpperChar c = c ∨
      (65 ≤ (pyUpperChar c).toNat ∧ (pyUpperChar c).toNat ≤ 90) := by
  unfold pyUpperChar
  by_cases h : 'a' ≤ c ∧ c ≤ 'z'
  · right
    rw [if_pos h]
    have h1 : 97 ≤ c.toNat := h.1
    have h2 : c.toNat ≤ 122 := h.2
    have hv : (c.toNat - 32) < 0xd800 := by omega
    have ht : (Char.ofNat (c.toNat - 32)).toNat = c.toNat - 32 := by
      unfold Char.ofNat
      rw [dif_pos (Or.inl hv)]
      rfl
    omega
  · left
    rw [if_neg h]

/-- Characters in the `A`–`Z` code range are ordinary text characters. -/
theorem toNat_65_props (d : Char) (h : 65 ≤ d.toNat) (h2 : d.toNat ≤ 90) :
    pyIsSpace d = false ∧ notSpecialWs d = true ∧ pyUpperChar d = d ∧
      d ∉ punctChars := by
  have hne : ∀ (e : Char), e.toNat < 65 → d ≠ e := by
    intro e he hde
    rw [hde] at h
    omega
  refine ⟨?_, ?_, ?_, ?_⟩
  · simp [pyIsSpace, hne ' ' (by decide), hne '\t' (by decide),
      hne '\n' (by decide), hne '\r' (by decide), hne '\x0b' (by decide),
      hne '\x0c' (by decide)]
  · simp [notSpecialWs, hne '\t' (by decide), hne '\n' (by decide),
      hne '\x0b' (by decide), hne '\x0c' (by decide), hne '\r' (by decide)]
  · unfold pyUpperChar
    rw [if_neg]
    intro hc
    have : 97 ≤ d.toNat := hc.1
    omega
  · intro hmem
    have : d.toNat < 65 := by
      simp only [punctChars, List.mem_cons, List.not_mem_nil, or_false] at hmem
      rcases hmem with h | h | h | h
      all_goals rw [h]
      all_goals decide
    omega

/-- ASCII uppercasing is idempotent. -/
theorem pyUpperChar_idem (c : Char) :
    pyUpperChar (pyUpperChar c) = pyUpperChar c := by
  rcases pyUpperChar_cases c with h | ⟨h1, h2⟩
  · rw [h, h]
  · exact (toNat_65_props _ h1 h2).2.2.1

/-- The terminal punctuation characters are ordinary text characters. -/
theorem punctChar_props (a : Char) (h : a ∈ punctChars) :
    pyIsSpace a = false ∧ a ≠ '\n' ∧ notSpecialWs a = true ∧
      ((a = ' ' || a = '\t') = false) ∧ a ≠ ' ' := by
  simp only [punctChars, List.mem_cons, List.not_mem_nil, or_false] at h
  rcases h with h | h | h | h
  all_goals subst h
  all_goals exact ⟨by decide, by decide, by decide, by decide, by decide⟩

/-- Cutting whitespace from the end is a sublist operation. -/
theorem dropWhileEnd_sublist (p : Char → Bool) (t : Str) :
    (dropWhileEnd p t).Sublist t := by
  unfold dropWhileEnd
  have h := (List.dropWhile_sublist (l := t.reverse) p).reverse
  simpa using h

/-- Cutting whitespace from the end is a prefix operation. -/
theorem dropWhileEnd_prefix (p : Char → Bool) (t : Str) :
    dropWhileEnd p t <+: t := by
  unfold dropWhileEnd
  exact List.reverse_suffix.mp (by simpa using List.dropWhile_suffix p)

/-- Stripping yields a sublist. -/
theorem pyStrip_sublist (s : Str) : (pyStrip s).Sublist s :=
  (dropWhileEnd_sublist _ _).trans (List.dropWhile_sublist _)

/-- The head of a `dropWhile` fails the predicate. -/
theorem dropWhile_head_not (p : Char → Bool) (l : Str) (c : Char) (rest : Str)
    (h : l.dropWhile p = c :: rest) : p c = false := by
  induction l with
  | nil => simp at h
  | cons a t ih =>
    rw [List.dropWhile_cons] at h
    split at h
    · exact ih h
    · rename_i hp
      injection h with hh ht
      subst hh
      simpa using hp

/-- The first character of a stripped string is not whitespace. -/
theorem pyStrip_head_not_space (s : Str) (c : Char) (rest : Str)
    (h : pyStrip s = c :: rest) : pyIsSpace c = false := by
  have hpre : pyStrip s <+: s.dropWhile pyIsSpace := dropWhileEnd_prefix _ _
  obtain ⟨tail, htail⟩ := hpre
  rw [h] at htail
  exact dropWhile_head_not _ _ _ _ htail.symm

/-- The last character of a stripped string is not whitespace. -/
theorem pyStrip_last_not_space (s : Str) (c : Char)
    (h : (pyStrip s).getLast? = some c) : pyIsSpace c = false := by
  unfold pyStrip dropWhileEnd at h
  rw [List.getLast?_reverse] at h
  cases hd : (s.dropWhile pyIsSpace).reverse.dropWhile pyIsSpace with
  | nil => rw [hd] at h; cases h
  | cons d tl =>
    rw [hd, List.head?_cons] at h
    injection h with hdc
    subst hdc
    exact dropWhile_head_not _ _ _ _ hd

/-- Stripping is the identity when both ends are not whitespace. -/
theorem pyStrip_noop (s : Str)
    (h1 : ∀ a, s.head? = some a → pyIsSpace a = false)
    (h2 : ∀ a, s.getLast? = some a → pyIsSpace a = false) :
    pyStrip s = s := by
  unfold pyStrip
  have hdw : s.dropWhile pyIsSpace = s := by
    cases s with
    | nil => rfl
    | cons a t =>
      rw [List.dropWhile_cons, if_neg (by simp [h1 a rfl])]
  rw [hdw]
  unfold dropWhileEnd
  have hdw2 : s.reverse.dropWhile pyIsSpace = s.reverse := by
    cases hs : s.reverse with
    | nil => rfl
    | cons a t =>
      have hla : s.getLast? = some a := by
        rw [← List.head?_reverse, hs, List.head?_cons]
      rw [List.dropWhile_cons, if_neg (by simp [h2 a hla])]
  rw [hdw2, List.reverse_reverse]

/-- Characterization of a nonempty `punctuate` output. -/
theorem punctuate_eq (y : Str) (hne : punctuate y ≠ []) :
    ∃ c rest, pyStrip y = c :: rest ∧
      (punctuate y = pyUpperChar c :: rest ∨
       punctuate y = pyUpperChar c :: (rest ++ ['.'])) := by
  unfold punctuate at hne ⊢
  by_cases hemp : y.isEmpty
  · rw [if_pos hemp] at hne
    exact absurd (List.isEmpty_iff.mp hemp) hne
  · rw [if_neg hemp]
    cases hs : pyStrip y with
    | nil =>
      rw [if_neg hemp, hs] at hne
      exact absurd rfl hne
    | cons c rest =>
      refine ⟨c, rest, rfl, ?_⟩
      simp only []
      by_cases hlast : (pyUpperChar c :: rest).getLast (by simp) ∈ punctChars
      · left
        rw [if_pos hlast]
      · right
        rw [if_neg hlast]
        simp

/-- All characters of a `punctuate` output are ordinary text characters
when the input has only ordinary characters. -/
theorem punctuate_chars (y : Str) (hws : ∀ c ∈ y, notSpecialWs c = true)
    (hne : punctuate y ≠ []) : ∀ a ∈ punctuate y, notSpecialWs a = true := by
  obtain ⟨c, rest, hs, hq⟩ := punctuate_eq y hne
  have hmemy : ∀ a ∈ pyStrip y, notSpecialWs a = true :=
    fun a ha => hws a ((pyStrip_sublist y).mem ha)
  have hupper : notSpecialWs (pyUpperChar c) = true := by
    rcases pyUpperChar_cases c with h | ⟨h1, h2⟩
    · rw [h]
      exact hmemy c (by rw [hs]; exact List.mem_cons_self _ _)
    · exact (toNat_65_props _ h1 h2).2.1
  intro a ha
  rcases hq with hq | hq
  · rw [hq] at ha
    rcases List.mem_cons.mp ha with rfl | ha2
    · exact hupper
    · exact hmemy a (by rw [hs]; exact List.mem_cons_of_mem _ ha2)
  · rw [hq] at ha
    rcases List.mem_cons.mp ha with rfl | ha2
    · exact hupper
    · rcases List.mem_append.mp ha2 with ha3 | ha3
      · exact hmemy a (by rw [hs]; exact List.mem_cons_of_mem _ ha3)
      · have : a = '.' := by simpa using ha3
        subst this
        decide

/-- The first character of a `punctuate` output is not whitespace. -/
theorem punctuate_head_not_space (y : Str) (hne : punctuate y ≠ []) :
    ∀ a, (punctuate y).head? = some a → pyIsSpace a = false := by
  obtain ⟨c, rest, hs, hq⟩ := punctuate_eq y hne
  intro a ha
  have hcs : pyIsSpace c = false := pyStrip_head_not_space y c rest hs
  have hupper : pyIsSpace (pyUpperChar c) = false := by
    rcases pyUpperChar_cases c with h | ⟨h1, h2⟩
    · rw [h]
      exact hcs
    · exact (toNat_65_props _ h1 h2).1
  rcases hq with hq | hq
  · rw [hq, List.head?_cons] at ha
    injection ha with ha2
    subst ha2
    exact hupper
  · rw [hq, List.head?_cons] at ha
    injection ha with ha2
    subst ha2
    exact hupper

/-- `punctuate` is the identity on a string that is already stripped,
upper-cased at the front, and terminally punctuated. -/
theorem punctuate_noop (q : Str) (hne : q ≠ []) (hstrip : pyStrip q = q)
    (hhead : ∀ a, q.head? = some a → pyUpperChar a = a)
    (hlast : ∀ a, q.getLast? = some a → a ∈ punctChars) :
    punctuate q = q := by
  cases q with
  | nil => exact absurd rfl hne
  | cons c rest =>
    unfold punctuate
    rw [if_neg (by simp)]
    rw [hstrip]
    simp only []
    have hd : pyUpperChar c = c := hhead c rfl
    simp only [hd]
    rw [if_pos (hlast _ (List.getLast?_eq_getLast _ (by simp)))]

/-- Applying `punctuate` to a nonempty `punctuate` output changes
nothing. -/
theorem punctuate_fixed (y : Str) (hne : punctuate y ≠ []) :
    punctuate (punctuate y) = punctuate y := by
  obtain ⟨c, rest, hs, hq⟩ := punctuate_eq y hne
  apply punctuate_noop _ hne
  · apply pyStrip_noop
    · exact punctuate_head_not_space y hne
    · exact fun a ha => (punctChar_props a (punctuate_last_mem _ a ha)).1
  · intro a ha
    have hac : a = pyUpperChar c := by
      rcases hq with hq | hq
      · rw [hq, List.head?_cons] at ha
        injection ha with h2
        exact h2.symm
      · rw [hq, List.head?_cons] at ha
        injection ha with h2
        exact h2.symm
    rw [hac]
    exact pyUpperChar_idem c
  · exact fun a ha => punctuate_last_mem _ a ha

/-- The line split never yields an empty list of lines. -/
theorem splitOn_nl_ne_nil (l : Str) : l.splitOn '\n' ≠ [] := by
  induction l with
  | nil => simp
  | cons c rest ih =>
    show (c :: rest).splitOnP (· == '\n') ≠ []
    rw [List.splitOnP_cons]
    split
    · simp
    · show List.modifyHead _ (rest.splitOn '\n') ≠ []
      cases hs : rest.splitOn '\n' with
      | nil => exact absurd hs ih
      | cons a t => simp

/-- A line without newline characters splits into itself. -/
theorem splitOn_no_nl (l : Str) (h : ∀ a ∈ l, a ≠ '\n') :
    l.splitOn '\n' = [l] := by
  induction l with
  | nil => rfl
  | cons c rest ih =>
    show (c :: rest).splitOnP (· == '\n') = [c :: rest]
    rw [List.splitOnP_cons, if_neg (by simp [h c (List.mem_cons_self _ _)])]
    have hr : rest.splitOn '\n' = [rest] :=
      ih (fun a ha => h a (List.mem_cons_of_mem _ ha))
    show List.modifyHead _ (rest.splitOn '\n') = _
    rw [hr, List.modifyHead_cons]

/-- Splitting distributes over a newline separator. -/
theorem splitOn_sep_append (a b : Str) :
    (a ++ '\n' :: b).splitOn '\n' = a.splitOn '\n' ++ b.splitOn '\n' := by
  induction a with
  | nil =>
    show ('\n' :: b).splitOnP (· == '\n') = _
    rw [List.splitOnP_cons, if_pos (by simp)]
    rfl
  | cons c a2 ih =>
    show (c :: (a2 ++ '\n' :: b)).splitOnP (· == '\n') = _
    rw [List.splitOnP_cons]
    by_cases hc : c = '\n'
    · rw [if_pos (by simp [hc])]
      show _ = (c :: a2).splitOnP (· == '\n') ++ _
      rw [List.splitOnP_cons, if_pos (by simp [hc])]
      show ([] : Str) :: (a2 ++ '\n' :: b).splitOn '\n' = _
      rw [ih]
      rfl
    · rw [if_neg (by simp [hc])]
      show List.modifyHead _ ((a2 ++ '\n' :: b).splitOn '\n') = _
      rw [ih]
      show _ = (c :: a2).splitOnP (· == '\n') ++ _
      rw [List.splitOnP_cons, if_neg (by simp [hc])]
      have hrw : List.splitOnP (fun x => x == '\n') a2 = a2.splitOn '\n' := rfl
      rw [hrw]
      cases hs : a2.splitOn '\n' with
      | nil => exact absurd hs (splitOn_nl_ne_nil a2)
      | cons x t =>
        rw [List.cons_append, List.modifyHead_cons, List.modifyHead_cons]
        rfl

/-- Lines of a newline-containing cons: first the lines of the head
segment, then an empty line, then the rest. -/
theorem lines_joinP_cons (o : Str) (rest : List Str) (h : rest ≠ []) :
    (joinP (o :: rest)).splitOn '\n' =
      o.splitOn '\n' ++ [] :: (joinP rest).splitOn '\n' := by
  rw [joinP_cons o rest h]
  rw [splitOn_sep_append o ('\n' :: joinP rest)]
  have h2 : ('\n' :: joinP rest) = [] ++ '\n' :: joinP rest := rfl
  rw [h2, splitOn_sep_append [] (joinP rest)]
  rfl

/-- Every line of a blank-line join is empty or a line of a segment. -/
theorem lines_joinP_mem (outs : List Str) :
    ∀ l ∈ (joinP outs).splitOn '\n',
      l = [] ∨ ∃ o ∈ outs, l ∈ o.splitOn '\n' := by
  induction outs with
  | nil =>
    intro l hl
    left
    simpa [joinP] using hl
  | cons o rest ih =>
    intro l hl
    cases rest with
    | nil =>
      rw [joinP_singleton] at hl
      exact Or.inr ⟨o, List.mem_singleton.mpr rfl, hl⟩
    | cons b t =>
      rw [lines_joinP_cons o (b :: t) (by simp)] at hl
      rcases List.mem_append.mp hl with h1 | h1
      · exact Or.inr ⟨o, List.mem_cons_self _ _, h1⟩
      · rcases List.mem_cons.mp h1 with rfl | h2
        · exact Or.inl rfl
        · rcases ih l h2 with h3 | ⟨o2, ho2, hlo2⟩
          · exact Or.inl h3
          · exact Or.inr ⟨o2, List.mem_cons_of_mem _ ho2, hlo2⟩

/-- Every line of a segment occurs among the lines of the join. -/
theorem lines_joinP_mem_rev (outs : List Str) :
    ∀ o ∈ outs, ∀ l ∈ o.splitOn '\n', l ∈ (joinP outs).splitOn '\n' := by
  induction outs with
  | nil => intro o ho; cases ho
  | cons o2 rest ih =>
    intro o ho l hl
    cases rest with
    | nil =>
      rw [List.mem_singleton] at ho
      subst ho
      rw [joinP_singleton]
      exact hl
    | cons b t =>
      rw [lines_joinP_cons o2 (b :: t) (by simp)]
      rcases List.mem_cons.mp ho with rfl | ho2
      · exact List.mem_append.mpr (Or.inl hl)
      · exact List.mem_append.mpr (Or.inr
          (List.mem_cons_of_mem _ (ih o ho2 l hl)))

/-- A string whose head is not a space or tab has no leading
whitespace. -/
theorem leadingWs_nil (s : Str)
    (h : ∀ a, s.head? = some a → (a = ' ' || a = '\t') = false) :
    leadingWs s = [] := by
  cases s with
  | nil => rfl
  | cons c rest =>
    unfold leadingWs
    rw [List.takeWhile_cons, if_neg (by simp [h c rfl])]

/-- Strings without newlines have no blank-line separator. -/
theorem noDoubleNl_of_no_nl (s : Str) (h : ∀ a ∈ s, a ≠ '\n') :
    noDoubleNl s = true := by
  induction s with
  | nil => rfl
  | cons c rest ih =>
    rw [noDoubleNl.eq_def]
    split
    · rename_i r heq
      injection heq with h1 h2
      exact absurd h1 (h c (List.mem_cons_self _ _))
    · rename_i c2 r2 heq
      injection heq with h1 h2
      subst h2
      exact ih (fun a ha => h a (List.mem_cons_of_mem _ ha))
    · rename_i heq
      cases heq

/-- Folding the margin step from the empty margin stays empty. -/
theorem foldl_marginStep_nil (l : List Str) :
    l.foldl marginStep [] = [] := by
  induction l with
  | nil => rfl
  | cons i rest ih =>
    rw [List.foldl_cons]
    have hstep : marginStep [] i = [] := by
      unfold marginStep
      rw [if_pos (show (List.isPrefixOf [] i) = true by cases i <;> rfl)]
    rw [hstep]
    exact ih

/-- The margin step applied to an empty indent yields the empty margin. -/
theorem marginStep_nil_right (m : Str) : marginStep m [] = [] := by
  unfold marginStep
  cases m with
  | nil => rw [if_pos (show (List.isPrefixOf ([] : Str) []) = true from rfl)]
  | cons c t =>
    rw [if_neg (by simp [List.isPrefixOf]),
      if_pos (show (List.isPrefixOf [] (c :: t)) = true by rfl)]

/-- A list of indents containing the empty indent has empty common
margin. -/
theorem foldl_marginStep_mem_nil (l : List Str) :
    ∀ m, [] ∈ l → l.foldl marginStep m = [] := by
  induction l with
  | nil => intro m h; cases h
  | cons i rest ih =>
    intro m h
    rw [List.foldl_cons]
    rcases List.mem_cons.mp h with h1 | h1
    · rw [← h1, marginStep_nil_right]
      exact foldl_marginStep_nil rest
    · exact ih _ h1

/-- `computeMargin` of a family containing an unindented line is empty. -/
theorem computeMargin_nil_mem (l : List Str) (h : [] ∈ l) :
    computeMargin l = [] := by
  cases l with
  | nil => cases h
  | cons i rest =>
    unfold computeMargin
    rcases List.mem_cons.mp h with h1 | h1
    · rw [← h1]
      exact foldl_marginStep_nil rest
    · exact foldl_marginStep_mem_nil rest i h1

/-- Rejoining the newline split of a string gives it back. -/
theorem intercalate_lines (t : Str) :
    ((t.splitOn '\n').intersperse (strL "\n")).flatten = t := by
  have h := List.intercalate_splitOn t '\n'
  unfold List.intercalate at h
  simpa [strL] using h

/-- `dedent` is the identity when no line is whitespace-only and some
nonempty line has no indentation. -/
theorem dedent_noop (t : Str)
    (hw : ∀ l ∈ t.splitOn '\n', isWsOnlyLine l = false)
    (hm : ∃ l ∈ t.splitOn '\n', l ≠ [] ∧ leadingWs l = []) :
    dedent t = t := by
  unfold dedent
  have hls : (t.splitOn '\n').map (fun l => if isWsOnlyLine l then [] else l) =
      t.splitOn '\n' := by
    have hcongr : ∀ l ∈ t.splitOn '\n',
        (if isWsOnlyLine l then [] else l) = l := by
      intro l hl
      rw [if_neg (by simp [hw l hl])]
    rw [List.map_congr_left hcongr]
    simp
  obtain ⟨l0, hl0, hl0ne, hl0ws⟩ := hm
  have hmem : [] ∈ (t.splitOn '\n').filterMap
      (fun l => if l.isEmpty then none else some (leadingWs l)) := by
    rw [List.mem_filterMap]
    exact ⟨l0, hl0, by rw [if_neg (by simp [hl0ne]), hl0ws]⟩
  simp only [hls, computeMargin_nil_mem _ hmem]
  rw [if_pos (show (List.isEmpty ([] : Str)) = true from rfl)]
  exact intercalate_lines t

/-- Stripping outer newlines from a blank-line-terminated string whose core
has clean ends removes exactly the trailing blank line. -/
theorem stripNl_append_nn (w : Str) (hne : w ≠ [])
    (hh : ∀ a, w.head? = some a → a ≠ '\n')
    (hl : w.getLast? ≠ some '\n') :
    stripNl (w ++ strL "\n\n") = w := by
  unfold stripNl
  have hdw : (w ++ strL "\n\n").dropWhile (· = '\n') = w ++ strL "\n\n" := by
    cases w with
    | nil => exact absurd rfl hne
    | cons a t =>
      rw [List.cons_append, List.dropWhile_cons,
        if_neg (by simp [hh a rfl])]
  rw [hdw]
  unfold dropWhileEnd
  have hrev : (w ++ strL "\n\n").reverse = '\n' :: '\n' :: w.reverse := by
    simp [strL]
  rw [hrev]
  have hstep : ('\n' :: '\n' :: w.reverse).dropWhile (· = '\n') =
      w.reverse.dropWhile (· = '\n') := by
    rw [List.dropWhile_cons, if_pos (by simp), List.dropWhile_cons,
      if_pos (by simp)]
  rw [hstep]
  have hwrev : w.reverse.dropWhile (· = '\n') = w.reverse := by
    cases hr : w.reverse with
    | nil => rfl
    | cons a t =>
      have hla : w.getLast? = some a := by
        rw [← List.head?_reverse, hr, List.head?_cons]
      have hane : a ≠ '\n' := by
        intro hh2
        subst hh2
        exact hl hla
      rw [List.dropWhile_cons, if_neg (by simp [hane])]
  rw [hwrev, List.reverse_reverse]

/-- The last element of a blank-line join is the last segment's last
element. -/
theorem joinP_getLast (outs : List Str) (g : Str)
    (hg : outs.getLast? = some g) (hne : g ≠ []) :
    (joinP outs).getLast? = g.getLast? := by
  induction outs with
  | nil => cases hg
  | cons o rest ih =>
    cases rest with
    | nil =>
      rw [List.getLast?_singleton] at hg
      injection hg with hg2
      subst hg2
      rw [joinP_singleton]
    | cons b t =>
      rw [List.getLast?_cons_cons] at hg
      have hjr := ih hg
      rw [joinP_cons o (b :: t) (by simp)]
      rw [List.getLast?_append]
      have hjne : (joinP (b :: t)).getLast?.isSome := by
        rw [hjr]
        cases g with
        | nil => exact absurd rfl hne
        | cons x xs => simp [List.getLast?_isSome]
      rw [List.getLast?_cons_cons]
      cases hj : (joinP (b :: t)).getLast? with
      | none => rw [hj] at hjne; cases hjne
      | some gg =>
        rw [hj] at hjr
        rw [← hjr]
        cases hjq : joinP (b :: t) with
        | nil => rw [hjq] at hj; cases hj
        | cons x xs =>
          rw [hjq] at hj
          rw [List.getLast?_cons_cons, hj]
          rfl

/-- A verbatim paragraph starts with one of the four marker characters. -/
theorem verbatim_head (y : Str) (h : isVerbatimPara y = true) :
    ∃ a t, y = a :: t ∧ (a = ' ' ∨ a = '.' ∨ a = '>' ∨ a = '[') := by
  cases y with
  | nil => simp [isVerbatimPara, strL, List.isPrefixOf] at h
  | cons a t =>
    refine ⟨a, t, rfl, ?_⟩
    simp only [isVerbatimPara, strL, Bool.or_eq_true] at h
    rcases h with ((h | h) | h) | h
    · left
      have : List.isPrefixOf [' '] (a :: t) = ((' ' == a) && List.isPrefixOf [] t) := by
        simp [List.isPrefixOf]
      rw [this] at h
      simp at h
      exact h.symm
    · right; left
      have : List.isPrefixOf ['.', '.'] (a :: t) =
          (('.' == a) && List.isPrefixOf ['.'] t) := by
        simp [List.isPrefixOf]
      rw [this] at h
      simp at h
      exact h.1.symm
    · right; right; left
      have : List.isPrefixOf ['>'] (a :: t) = (('>' == a) && List.isPrefixOf [] t) := by
        simp [List.isPrefixOf]
      rw [this] at h
      simp at h
      exact h.symm
    · right; right; right
      have : List.isPrefixOf ['['] (a :: t) = (('[' == a) && List.isPrefixOf [] t) := by
        simp [List.isPrefixOf]
      rw [this] at h
      simp at h
      exact h.symm

/-- The head of a blank-line join is the head of its first segment. -/
theorem joinP_head (o : Str) (rest : List Str) (hne : o ≠ []) :
    (joinP (o :: rest)).head? = o.head? := by
  cases rest with
  | nil => rw [joinP_singleton]
  | cons b t =>
    rw [joinP_cons o (b :: t) (by simp), List.head?_append]
    cases o with
    | nil => exact absurd rfl hne
    | cons x xs => rfl

/-- A non-whitespace character is neither a space nor a tab. -/
theorem not_space_tab (a : Char) (h : pyIsSpace a = false) :
    (a = ' ' || a = '\t') = false := by
  cases hsp : decide (a = ' ') with
  | true =>
    have : a = ' ' := of_decide_eq_true hsp
    subst this
    simp [pyIsSpace] at h
  | false =>
    cases htb : decide (a = '\t') with
    | true =>
      have : a = '\t' := of_decide_eq_true htb
      subst this
      simp [pyIsSpace] at h
    | false => simp [of_decide_eq_false hsp, of_decide_eq_false htb]

/-- C9, amended: on normalized input -- no outer newlines, no removable
indentation, paragraphs free of blank lines, trailing newlines and
whitespace-only lines, and every non-verbatim paragraph made of ordinary
characters that fits the 70-column width once punctuated -- the paragraph
formatter is idempotent. -/
theorem claim9_idempotence (x : Str) (h : NormalizedInput x) :
    format_paragraphs (format_paragraphs x) = format_paragraphs x := by
  obtain ⟨h1, h2, h3⟩ := h
  have hsegne : splitP x ≠ [] := splitP_ne_nil x
  -- Properties of each paragraph output.
  have hop : ∀ y ∈ splitP x, outCore y ≠ [] ∧ noDoubleNl (outCore y) = true ∧
      (outCore y).getLast? ≠ some '\n' ∧
      (∀ a, (outCore y).head? = some a → a ≠ '\n') ∧
      (∀ l ∈ (outCore y).splitOn '\n', isWsOnlyLine l = false) := by
    intro y hy
    obtain ⟨hnd, hyl, hlines, hnv⟩ := h3 y hy
    unfold outCore
    by_cases hv : isVerbatimPara y
    · rw [if_pos hv]
      obtain ⟨a, t, heq, ha⟩ := verbatim_head y hv
      refine ⟨by rw [heq]; simp, hnd, hyl, ?_, hlines⟩
      intro a2 ha2
      rw [heq, List.head?_cons] at ha2
      injection ha2 with ha3
      subst ha3
      rcases ha with hc | hc | hc | hc
      all_goals rw [hc]
      all_goals decide
    · rw [if_neg hv]
      obtain ⟨hws, hne, hlen⟩ := hnv (by simpa using hv)
      have hchars := punctuate_chars y hws hne
      have hnonl : ∀ a ∈ punctuate y, a ≠ '\n' := by
        intro a ha heq
        subst heq
        have := hchars _ ha
        simp [notSpecialWs] at this
      refine ⟨hne, noDoubleNl_of_no_nl _ hnonl, ?_, ?_, ?_⟩
      · intro hl2
        have := punctuate_last_mem y '\n' hl2
        simp [punctChars] at this
      · intro a ha heq
        subst heq
        exact hnonl '\n' (List.mem_of_mem_head? ha) rfl
      · rw [splitOn_no_nl _ hnonl]
        intro l hl
        rw [List.mem_singleton] at hl
        subst hl
        cases hql : (punctuate y).getLast? with
        | none =>
          cases hq2 : punctuate y with
          | nil => exact absurd hq2 hne
          | cons q qs => rw [hq2] at hql; simp at hql
        | some p =>
          have hpp := punctChar_props p (punctuate_last_mem y p hql)
          have hpm : p ∈ punctuate y := List.mem_of_mem_getLast? hql
          unfold isWsOnlyLine
          cases hall : (punctuate y).all (fun c => c = ' ' || c = '\t') with
          | false => simp [hall]
          | true =>
            exfalso
            rw [List.all_eq_true] at hall
            have hp2 := hall p hpm
            rw [hpp.2.2.2.1] at hp2
            cases hp2
  -- Pass 1: each paragraph branch is its core followed by a blank line.
  have hcore : ∀ y ∈ splitP x, paraBranch y = outCore y ++ strL "\n\n" := by
    intro y hy
    obtain ⟨hnd, hyl, hlines, hnv⟩ := h3 y hy
    unfold paraBranch outCore
    by_cases hv : isVerbatimPara y
    · rw [if_pos hv, if_pos hv]
    · rw [if_neg hv, if_neg hv]
      obtain ⟨hws, hne, hlen⟩ := hnv (by simpa using hv)
      congr 1
      apply fill_fixed
      · exact hne
      · exact punctuate_chars y hws hne
      · exact hlen
      · exact fun p hp => (punctChar_props p (punctuate_last_mem y p hp)).2.2.2.2
  -- Pass 2: each core paragraph is branch-fixed.
  have hfix : ∀ y ∈ splitP x, paraBranch (outCore y) = outCore y ++ strL "\n\n" := by
    intro y hy
    obtain ⟨hnd, hyl, hlines, hnv⟩ := h3 y hy
    unfold outCore
    by_cases hv : isVerbatimPara y
    · rw [if_pos hv]
      unfold paraBranch
      rw [if_pos hv]
    · rw [if_neg hv]
      obtain ⟨hws, hne, hlen⟩ := hnv (by simpa using hv)
      unfold paraBranch
      by_cases hv2 : isVerbatimPara (punctuate y)
      · rw [if_pos hv2]
      · rw [if_neg hv2]
        congr 1
        rw [punctuate_fixed y hne]
        apply fill_fixed
        · exact hne
        · exact punctuate_chars y hws hne
        · exact hlen
        · exact fun p hp => (punctChar_props p (punctuate_last_mem y p hp)).2.2.2.2
  -- Shape of the first pass.
  have hfp1 : format_paragraphs x =
      ((splitP x).map (fun y => outCore y ++ strL "\n\n")).flatten := by
    unfold format_paragraphs
    rw [h1, h2, List.map_congr_left hcore]
  have houts_ne : (splitP x).map outCore ≠ [] := by
    simpa using hsegne
  have hz : ((splitP x).map (fun y => outCore y ++ strL "\n\n")).flatten =
      joinP ((splitP x).map outCore) ++ strL "\n\n" := by
    have hmapcomp : (splitP x).map (fun y => outCore y ++ strL "\n\n") =
        ((splitP x).map outCore).map (· ++ strL "\n\n") := by
      rw [List.map_map]
      rfl
    rw [hmapcomp]
    exact flatten_map_nn _ houts_ne
  -- The join of the cores.
  have hmemouts : ∀ o ∈ (splitP x).map outCore, ∃ y ∈ splitP x, outCore y = o := by
    intro o ho
    exact List.mem_map.mp ho
  -- Head of the join is not a newline.
  have hhead_join : ∀ a,
      (joinP ((splitP x).map outCore)).head? = some a → a ≠ '\n' := by
    cases hsp : splitP x with
    | nil => exact absurd hsp hsegne
    | cons y0 ys =>
      intro a ha
      have hy0 : y0 ∈ splitP x := by rw [hsp]; exact List.mem_cons_self _ _
      rw [List.map_cons, joinP_head _ _ (hop y0 hy0).1] at ha
      exact (hop y0 hy0).2.2.2.1 a ha
  -- The join itself is nonempty.
  have hjoin_ne : joinP ((splitP x).map outCore) ≠ [] := by
    cases hsp : splitP x with
    | nil => exact absurd hsp hsegne
    | cons y0 ys =>
      have hy0 : y0 ∈ splitP x := by rw [hsp]; exact List.mem_cons_self _ _
      intro hcontra
      have hh := joinP_head (outCore y0) (ys.map outCore) (hop y0 hy0).1
      rw [List.map_cons] at hcontra
      rw [hcontra] at hh
      cases hoc : outCore y0 with
      | nil => exact (hop y0 hy0).1 hoc
      | cons q qs =>
        rw [hoc, List.head?_cons] at hh
        cases hh
  -- Last character of the join is not a newline.
  have hlast_join : (joinP ((splitP x).map outCore)).getLast? ≠ some '\n' := by
    have hgne := houts_ne
    have hgl : ((splitP x).map outCore).getLast? =
        some (((splitP x).map outCore).getLast hgne) :=
      List.getLast?_eq_getLast _ hgne
    have hgmem : ((splitP x).map outCore).getLast hgne ∈ (splitP x).map outCore :=
      List.getLast_mem hgne
    obtain ⟨yl, hyl, hylo⟩ := hmemouts _ hgmem
    rw [joinP_getLast _ _ hgl (by rw [← hylo]; exact (hop yl hyl).1)]
    rw [← hylo]
    exact (hop yl hyl).2.2.1
  -- Strip of the full first-pass output.
  have hstrip2 : stripNl (joinP ((splitP x).map outCore) ++ strL "\n\n") =
      joinP ((splitP x).map outCore) :=
    stripNl_append_nn _ hjoin_ne hhead_join hlast_join
  -- Dedent is the identity on the join.
  have hded : dedent (joinP ((splitP x).map outCore)) =
      joinP ((splitP x).map outCore) := by
    by_cases hall : ∀ y ∈ splitP x, isVerbatimPara y = true
    · have hid : (splitP x).map outCore = splitP x := by
        have : ∀ y ∈ splitP x, outCore y = y := by
          intro y hy
          unfold outCore
          rw [if_pos (hall y hy)]
        rw [List.map_congr_left this]
        simp
      rw [hid, joinP_splitP, h2]
    · push_neg at hall
      obtain ⟨y0, hy0, hv0⟩ := hall
      have hv0f : isVerbatimPara y0 = false := by simpa using hv0
      obtain ⟨hws0, hne0, hlen0⟩ := (h3 y0 hy0).2.2.2 hv0f
      have hnonl0 : ∀ a ∈ punctuate y0, a ≠ '\n' := by
        intro a ha heq
        subst heq
        have := punctuate_chars y0 hws0 hne0 _ ha
        simp [notSpecialWs] at this
      have hoc0 : outCore y0 = punctuate y0 := by
        unfold outCore
        rw [if_neg (by simp [hv0f])]
      apply dedent_noop
      · intro l hl
        rcases lines_joinP_mem _ l hl with rfl | ⟨o, ho, hlo⟩
        · simp [isWsOnlyLine]
        · obtain ⟨y, hy, hyo⟩ := hmemouts o ho
          rw [← hyo] at hlo
          exact (hop y hy).2.2.2.2 l hlo
      · refine ⟨outCore y0, ?_, (hop y0 hy0).1, ?_⟩
        · apply lines_joinP_mem_rev _ (outCore y0) (List.mem_map_of_mem _ hy0)
          rw [hoc0, splitOn_no_nl _ hnonl0]
          exact List.mem_singleton.mpr rfl
        · apply leadingWs_nil
          intro a ha
          rw [hoc0] at ha
          exact not_space_tab a (punctuate_head_not_space y0 hne0 a ha)
  -- Splitting the join recovers the cores.
  have hsplit2 : splitP (joinP ((splitP x).map outCore)) =
      (splitP x).map outCore := by
    apply splitP_joinP _ houts_ne
    intro o ho
    obtain ⟨y, hy, hyo⟩ := hmemouts o ho
    rw [← hyo]
    exact ⟨(hop y hy).2.1, (hop y hy).2.2.1⟩
  -- Put the second pass together.
  rw [hfp1, hz]
  unfold format_paragraphs
  rw [hstrip2, hded, hsplit2]
  have hfix2 : ∀ o ∈ (splitP x).map outCore,
      paraBranch o = o ++ strL "\n\n" := by
    intro o ho
    obtain ⟨y, hy, hyo⟩ := hmemouts o ho
    rw [← hyo]
    exact hfix y hy
  rw [List.map_congr_left hfix2]
  have hmapcomp2 : ((splitP x).map outCore).map (· ++ strL "\n\n") =
      (splitP x).map (fun y => outCore y ++ strL "\n\n") := by
    rw [List.map_map]
    rfl
  rw [hmapcomp2, hz]

/-- C9, counterexample: the formatter is not idempotent on all of its own
outputs.  A 68-letter word followed by two spaces and a colon wraps into
two lines whose line break swallows the double space, so the second pass
re-joins them into a single line. -/
theorem claim9_idempotence_counterexample :
    format_paragraphs (format_paragraphs c9Input) ≠ format_paragraphs c9Input := by
  decide

/-- Witness for `claim9_idempotence`: a concrete normalized input on which
the formatter is checked to be idempotent. -/
theorem claim9_idempotence_witness :
    NormalizedInput (strL "hello world") ∧
      format_paragraphs (format_paragraphs (strL "hello world")) =
        format_paragraphs (strL "hello world") :=
  ⟨by unfold NormalizedInput; decide,
    claim9_idempotence (strL "hello world") (by unfold NormalizedInput; decide)⟩
